import Mathlib

/-!
Reference counting (`glib/grefcount.c`).

A shallow embedding of the eight entry points of `glib/grefcount.c`:
the plain counter (`g_ref_count_*`, stored negated) and the atomic counter
(`g_atomic_ref_count_*`, stored as a positive count), followed by the
properties established about them.

Memory is a map from addresses to `gint` values; address `0` is `NULL`.
Every function takes the state it runs in and returns the state it leaves,
paired with its return value when it has one.
-/

namespace GRefCount

/-! ## Machine integers -/

/-- Largest value of a `gint`. Both `grefcount` and `gatomicrefcount` are `gint`,
a 32-bit two's-complement `int`. -/
def G_MAXINT : Int := 2147483647

/-- Smallest value of a `gint`. -/
def G_MININT : Int := -2147483648

/-- Reduction of a mathematical integer to the `gint` that a 32-bit
two's-complement cell holds after the arithmetic wrapped around. -/
def wrapGint (x : Int) : Int := (x + 2147483648) % 4294967296 - 2147483648

/-- The null address. -/
def NULL : Nat := 0

/-! ## Program state -/

/-- Program state: the contents of memory, one `gint` per address, and the
number of programming errors handed to the reporting hook so far. -/
structure State where
  mem : Nat → Int
  criticals : Nat

/-- Read of `*p`. -/
def State.load (s : State) (p : Nat) : Int := s.mem p

/-- Write of `*p = v`; every other address keeps its content. -/
def State.store (s : State) (p : Nat) (v : Int) : State :=
  { s with mem := fun q => if q = p then v else s.mem q }

/-- Modelled from the spec: the reporting collaborator behind the
`g_return_if_fail` and `g_return_val_if_fail` macros of `gmessages.h`, which is
not part of the sources. A failed check reports one programming error,
non-fatally, and the function returns its safe default; the report is counted
in `criticals` and memory is left alone. -/
def g_return_if_fail_warning (s : State) : State :=
  { s with criticals := s.criticals + 1 }

/-! ## Atomic primitives (`gatomic.h`) -/

/-- Modelled from the spec: `g_atomic_int_get` of `gatomic.h`, a single atomic
read of the cell. -/
def g_atomic_int_get (s : State) (atomic : Nat) : Int := s.load atomic

/-- Modelled from the spec: `g_atomic_int_set` of `gatomic.h`, a single atomic
write of the cell. -/
def g_atomic_int_set (atomic : Nat) (newval : Int) (s : State) : State :=
  s.store atomic newval

/-- Modelled from the spec: `g_atomic_int_inc` of `gatomic.h`, which atomically
increments the cell by one; on a 32-bit cell the addition wraps around. -/
def g_atomic_int_inc (atomic : Nat) (s : State) : State :=
  s.store atomic (wrapGint (s.load atomic + 1))

/-- Modelled from the spec: `g_atomic_int_dec_and_test` of `gatomic.h`, which
atomically decrements the cell by one and tests whether the result is zero, as
one indivisible operation; on a 32-bit cell the subtraction wraps around. -/
def g_atomic_int_dec_and_test (atomic : Nat) (s : State) : State × Bool :=
  let newval := wrapGint (s.load atomic - 1)
  (s.store atomic newval, decide (newval = 0))

/-! ## The plain counter -/

/-- Embedding of `g_ref_count_init`. -/
def g_ref_count_init (rc : Nat) (s : State) : State :=
  if rc ≠ NULL then
    s.store rc (-1)
  else g_return_if_fail_warning s

/-- Embedding of `g_ref_count_inc`. The subtraction `rrc -= 1` is done on a
`gint`, so its result is reduced with `wrapGint`: it is exact for every live
value except `G_MININT`, where C leaves the overflow undefined and a
two's-complement machine stores `G_MAXINT`. -/
def g_ref_count_inc (rc : Nat) (s : State) : State :=
  if rc ≠ NULL then
    let rrc := s.load rc
    if rrc < 0 then
      let rrc := wrapGint (rrc - 1)
      s.store rc rrc
    else g_return_if_fail_warning s
  else g_return_if_fail_warning s

/-- Embedding of `g_ref_count_dec`. The addition `rrc += 1` is done on a `gint`;
on a negative `gint` it cannot overflow. -/
def g_ref_count_dec (rc : Nat) (s : State) : State × Bool :=
  if rc ≠ NULL then
    let rrc := s.load rc
    if rrc < 0 then
      let rrc := wrapGint (rrc + 1)
      let s := s.store rc rrc
      if rrc = 0 then (s, true)
      else (s, false)
    else (g_return_if_fail_warning s, false)
  else (g_return_if_fail_warning s, false)

/-- Embedding of `g_ref_count_compare`. -/
def g_ref_count_compare (rc : Nat) (val : Int) (s : State) : State × Bool :=
  if rc ≠ NULL then
    let rrc := s.load rc
    (s, decide (rrc = val))
  else (g_return_if_fail_warning s, false)

/-! ## The atomic counter -/

/-- Embedding of `g_atomic_ref_count_init`. -/
def g_atomic_ref_count_init (arc : Nat) (s : State) : State :=
  if arc ≠ NULL then
    g_atomic_int_set arc 1 s
  else g_return_if_fail_warning s

/-- Embedding of `g_atomic_ref_count_inc`. -/
def g_atomic_ref_count_inc (arc : Nat) (s : State) : State :=
  if arc ≠ NULL then
    if g_atomic_int_get s arc > 0 then
      g_atomic_int_inc arc s
    else g_return_if_fail_warning s
  else g_return_if_fail_warning s

/-- Embedding of `g_atomic_ref_count_dec`. -/
def g_atomic_ref_count_dec (arc : Nat) (s : State) : State × Bool :=
  if arc ≠ NULL then
    if g_atomic_int_get s arc > 0 then
      g_atomic_int_dec_and_test arc s
    else (g_return_if_fail_warning s, false)
  else (g_return_if_fail_warning s, false)

/-- Embedding of `g_atomic_ref_count_compare`. -/
def g_atomic_ref_count_compare (arc : Nat) (val : Int) (s : State) : State × Bool :=
  if arc ≠ NULL then
    (s, decide (g_atomic_int_get s arc = val))
  else (g_return_if_fail_warning s, false)

/-! ## Call sequences -/

/-- One call made on a counter that has been initialised. -/
inductive Op where
  | inc : Op
  | dec : Op
  | compare (val : Int) : Op
  deriving DecidableEq

/-- One call on the plain counter at `rc`: the state it leaves and the boolean
it returns (`none` for the `void` function). -/
def plainCall (rc : Nat) : Op → State → State × Option Bool
  | Op.inc, s => (g_ref_count_inc rc s, none)
  | Op.dec, s => ((g_ref_count_dec rc s).1, some (g_ref_count_dec rc s).2)
  | Op.compare val, s =>
      ((g_ref_count_compare rc val s).1, some (g_ref_count_compare rc val s).2)

/-- One call on the atomic counter at `arc`, from a single thread. -/
def atomicCall (arc : Nat) : Op → State → State × Option Bool
  | Op.inc, s => (g_atomic_ref_count_inc arc s, none)
  | Op.dec, s => ((g_atomic_ref_count_dec arc s).1, some (g_atomic_ref_count_dec arc s).2)
  | Op.compare val, s =>
      ((g_atomic_ref_count_compare arc val s).1, some (g_atomic_ref_count_compare arc val s).2)

/-- State left by a sequence of calls made one after the other. -/
def finalState (call : Op → State → State × Option Bool) : List Op → State → State
  | [], s => s
  | o :: os, s => finalState call os (call o s).1

/-- What a call contributes to the list of `dec` return values. -/
def decReturn : Op → Option Bool → List Bool
  | Op.dec, some b => [b]
  | _, _ => []

/-- Return values of the `dec` calls of a sequence, in call order. -/
def decReturns (call : Op → State → State × Option Bool) : List Op → State → List Bool
  | [], _ => []
  | o :: os, s => decReturn o (call o s).2 ++ decReturns call os (call o s).1

/-- Value of the cell at `p`. -/
def cellValue (p : Nat) (s : State) : Int := s.mem p

/-- Number of references outstanding after the calls `ops` made on a counter that
was initialised to one reference: `1 + #inc - #dec`. -/
def outstanding (ops : List Op) : Int :=
  1 + (ops.count Op.inc : Int) - (ops.count Op.dec : Int)

/-- Whether a call is a `compare` call. -/
def Op.isCompare : Op → Bool
  | Op.compare _ => true
  | _ => false

/-- The sequence `ops` with its `compare` calls left out. -/
def withoutCompares (ops : List Op) : List Op :=
  ops.filter (fun o => !o.isCompare)

/-- A state whose memory holds `v` at every address, with nothing reported. -/
def constState (v : Int) : State := { mem := fun _ => v, criticals := 0 }

/-- A state to run examples in: all of memory zero, nothing reported. -/
def zeroState : State := { mem := fun _ => 0, criticals := 0 }

/-! ## Calls made by several threads

A call of `g_atomic_ref_count_inc` or `g_atomic_ref_count_dec` accesses the cell
twice: in the atomic read of its check, and then in its atomic update. Each
access is one indivisible step, and other threads may run between the two. An
interleaving is the order in which the calls in progress take their steps. -/

/-- Where a call in progress stands: before its check, after a check that
passed, or returned with its result (`none` for a `void` function). -/
inductive Pc where
  | start : Pc
  | checked : Pc
  | returned (ret : Option Bool) : Pc
  deriving DecidableEq

/-- A call in progress: the function called and where the call stands. -/
structure Call where
  op : Op
  pc : Pc
  deriving DecidableEq

/-- The next step of one call on the atomic counter at `arc`. From `start` the
call makes the checks of its `g_return_if_fail` lines, the second of which reads
the cell; from `checked` it makes its atomic update and returns. A `compare`
call reads the cell once and returns. A call that has returned stays as it is. -/
def stepCall (arc : Nat) (c : Call) (s : State) : Call × State :=
  match c.op, c.pc with
  | Op.inc, Pc.start =>
      if arc ≠ NULL then
        if g_atomic_int_get s arc > 0 then (⟨Op.inc, Pc.checked⟩, s)
        else (⟨Op.inc, Pc.returned none⟩, g_return_if_fail_warning s)
      else (⟨Op.inc, Pc.returned none⟩, g_return_if_fail_warning s)
  | Op.inc, Pc.checked => (⟨Op.inc, Pc.returned none⟩, g_atomic_int_inc arc s)
  | Op.dec, Pc.start =>
      if arc ≠ NULL then
        if g_atomic_int_get s arc > 0 then (⟨Op.dec, Pc.checked⟩, s)
        else (⟨Op.dec, Pc.returned (some false)⟩, g_return_if_fail_warning s)
      else (⟨Op.dec, Pc.returned (some false)⟩, g_return_if_fail_warning s)
  | Op.dec, Pc.checked =>
      (⟨Op.dec, Pc.returned (some (g_atomic_int_dec_and_test arc s).2)⟩,
        (g_atomic_int_dec_and_test arc s).1)
  | Op.compare val, Pc.start =>
      (⟨Op.compare val, Pc.returned (some (g_atomic_ref_count_compare arc val s).2)⟩,
        (g_atomic_ref_count_compare arc val s).1)
  | Op.compare val, Pc.checked => (⟨Op.compare val, Pc.checked⟩, s)
  | o, Pc.returned r => (⟨o, Pc.returned r⟩, s)

/-- The scheduler lets call number `i` of the calls in progress take its next
step; a number past the end of the list lets nobody run. -/
def stepAt (arc : Nat) : Nat → List Call → State → List Call × State
  | _, [], s => ([], s)
  | 0, c :: cs, s => ((stepCall arc c s).1 :: cs, (stepCall arc c s).2)
  | i + 1, c :: cs, s => (c :: (stepAt arc i cs s).1, (stepAt arc i cs s).2)

/-- Execution of an interleaving: `schedule` lists, step by step, the number of
the call that runs next. -/
def runSchedule (arc : Nat) : List Nat → List Call × State → List Call × State
  | [], sys => sys
  | i :: rest, sys => runSchedule arc rest (stepAt arc i sys.1 sys.2)

/-- Whether a call has returned. -/
def Pc.isReturned : Pc → Bool
  | Pc.returned _ => true
  | _ => false

/-- Whether every call has returned. -/
def allReturned (calls : List Call) : Bool :=
  calls.all (fun c => c.pc.isReturned)

/-- Number of calls that have returned. -/
def returnedCount (calls : List Call) : Nat :=
  calls.countP (fun c => c.pc.isReturned)

/-- Number of calls that have returned the boolean `b`. -/
def returnsOf (b : Bool) (calls : List Call) : Nat :=
  calls.countP (fun c => decide (c.pc = Pc.returned (some b)))

/-- The calls `n` threads are about to make, one call of `o` each. -/
def freshCalls (o : Op) (n : Nat) : List Call :=
  List.replicate n ⟨o, Pc.start⟩

/-- The retain phase: right after `g_atomic_ref_count_init`, `K` threads call
`g_atomic_ref_count_inc` once each, interleaved as `schedule` says. -/
def retainPhaseRun (arc : Nat) (K : Nat) (schedule : List Nat) (s : State) :
    List Call × State :=
  runSchedule arc schedule (freshCalls Op.inc K, g_atomic_ref_count_init arc s)

/-- The release phase: from the state `s`, `K + 1` calls of
`g_atomic_ref_count_dec` are made, interleaved as `schedule` says. -/
def releasePhaseRun (arc : Nat) (K : Nat) (schedule : List Nat) (s : State) :
    List Call × State :=
  runSchedule arc schedule (freshCalls Op.dec (K + 1), s)

/-- What holds throughout a phase in which `calls.length` threads release one
reference each, on a cell that held `calls.length` before the phase: every call
is a `dec` call, the references left plus the calls that have returned make up
the number of calls, a `TRUE` has been returned exactly if the cell has reached
`0`, every call that has returned has returned a boolean, and nothing has been
reported since the phase began with `reported` reports. -/
def ReleasePhase (arc : Nat) (reported : Nat) (calls : List Call) (s : State) : Prop :=
  (∀ c ∈ calls, c = ⟨Op.dec, Pc.start⟩ ∨ c = ⟨Op.dec, Pc.checked⟩
      ∨ c = ⟨Op.dec, Pc.returned (some true)⟩ ∨ c = ⟨Op.dec, Pc.returned (some false)⟩)
  ∧ s.mem arc + (returnedCount calls : Int) = (calls.length : Int)
  ∧ returnsOf true calls = (if s.mem arc = 0 then 1 else 0)
  ∧ returnsOf true calls + returnsOf false calls = returnedCount calls
  ∧ s.criticals = reported

/-- What holds throughout a phase in which `calls.length` threads retain one
reference each, on a cell that held `1` before the phase: every call is an `inc`
call, the cell holds `1` plus the number of calls that have returned, and
nothing has been reported since the phase began with `reported` reports. -/
def RetainPhase (arc : Nat) (reported : Nat) (calls : List Call) (s : State) : Prop :=
  (∀ c ∈ calls, c = ⟨Op.inc, Pc.start⟩ ∨ c = ⟨Op.inc, Pc.checked⟩
      ∨ c = ⟨Op.inc, Pc.returned none⟩)
  ∧ s.mem arc = 1 + (returnedCount calls : Int)
  ∧ s.criticals = reported

/-- Number of steps a call has taken: none before its check, one after a check
that passed, and all of them once it has returned. -/
def Pc.rank : Pc → Nat
  | Pc.start => 0
  | Pc.checked => 1
  | Pc.returned _ => 2

/-- Number of steps call number `j` has taken; a number past the end of the list
counts as a call that has returned. -/
def rankAt : List Call → Nat → Nat
  | [], _ => 2
  | c :: _, 0 => c.pc.rank
  | _ :: cs, j + 1 => rankAt cs j

/-- The interleaving without overlap: call `0` takes its two steps, then call `1`,
and so on up to call `n - 1`. -/
def seqSchedule : Nat → List Nat
  | 0 => []
  | n + 1 => seqSchedule n ++ [n, n]

/-! ## Basic facts -/

theorem wrapGint_of_range (x : Int) (h1 : G_MININT ≤ x) (h2 : x ≤ G_MAXINT) :
    wrapGint x = x := by
  unfold G_MININT at h1
  unfold G_MAXINT at h2
  unfold wrapGint
  omega

/-! ### One call, seen at the cell it is made on -/

theorem plain_init_value (rc : Nat) (s : State) (hrc : rc ≠ NULL) :
    cellValue rc (g_ref_count_init rc s) = -1 := by
  simp [g_ref_count_init, State.store, cellValue, hrc]

theorem plain_inc_value (rc : Nat) (s : State) (hrc : rc ≠ NULL) :
    cellValue rc (g_ref_count_inc rc s)
      = if cellValue rc s < 0 then wrapGint (cellValue rc s - 1) else cellValue rc s := by
  by_cases h : s.mem rc < 0
  · simp [g_ref_count_inc, State.load, State.store, cellValue, hrc, h]
  · simp [g_ref_count_inc, State.load, g_return_if_fail_warning, cellValue, hrc, h]

theorem plain_dec_value (rc : Nat) (s : State) (hrc : rc ≠ NULL) :
    cellValue rc (g_ref_count_dec rc s).1
      = if cellValue rc s < 0 then wrapGint (cellValue rc s + 1) else cellValue rc s := by
  by_cases h : s.mem rc < 0
  · by_cases h0 : wrapGint (s.mem rc + 1) = 0
    · simp [g_ref_count_dec, State.load, State.store, cellValue, hrc, h, h0]
    · simp [g_ref_count_dec, State.load, State.store, cellValue, hrc, h, h0]
  · simp [g_ref_count_dec, State.load, g_return_if_fail_warning, cellValue, hrc, h]

theorem plain_dec_ret (rc : Nat) (s : State) (hrc : rc ≠ NULL) :
    (g_ref_count_dec rc s).2
      = decide (cellValue rc s < 0 ∧ wrapGint (cellValue rc s + 1) = 0) := by
  by_cases h : s.mem rc < 0
  · by_cases h0 : wrapGint (s.mem rc + 1) = 0
    · simp [g_ref_count_dec, State.load, cellValue, hrc, h, h0]
    · simp [g_ref_count_dec, State.load, cellValue, hrc, h, h0]
  · simp [g_ref_count_dec, State.load, cellValue, hrc, h]

theorem atomic_init_value (arc : Nat) (s : State) (harc : arc ≠ NULL) :
    cellValue arc (g_atomic_ref_count_init arc s) = 1 := by
  simp [g_atomic_ref_count_init, g_atomic_int_set, State.store, cellValue, harc]

theorem atomic_inc_value (arc : Nat) (s : State) (harc : arc ≠ NULL) :
    cellValue arc (g_atomic_ref_count_inc arc s)
      = if 0 < cellValue arc s then wrapGint (cellValue arc s + 1) else cellValue arc s := by
  by_cases h : 0 < s.mem arc
  · simp [g_atomic_ref_count_inc, g_atomic_int_get, g_atomic_int_inc, State.load,
      State.store, cellValue, harc, h]
  · simp [g_atomic_ref_count_inc, g_atomic_int_get, State.load, g_return_if_fail_warning,
      cellValue, harc, h]

theorem atomic_dec_value (arc : Nat) (s : State) (harc : arc ≠ NULL) :
    cellValue arc (g_atomic_ref_count_dec arc s).1
      = if 0 < cellValue arc s then wrapGint (cellValue arc s - 1) else cellValue arc s := by
  by_cases h : 0 < s.mem arc
  · simp [g_atomic_ref_count_dec, g_atomic_int_get, g_atomic_int_dec_and_test, State.load,
      State.store, cellValue, harc, h]
  · simp [g_atomic_ref_count_dec, g_atomic_int_get, State.load, g_return_if_fail_warning,
      cellValue, harc, h]

theorem atomic_dec_ret (arc : Nat) (s : State) (harc : arc ≠ NULL) :
    (g_atomic_ref_count_dec arc s).2
      = decide (0 < cellValue arc s ∧ wrapGint (cellValue arc s - 1) = 0) := by
  by_cases h : 0 < s.mem arc
  · simp [g_atomic_ref_count_dec, g_atomic_int_get, g_atomic_int_dec_and_test, State.load,
      cellValue, harc, h]
  · simp [g_atomic_ref_count_dec, g_atomic_int_get, State.load, cellValue, harc, h]

/-! ### Sequences of calls -/

theorem finalState_append (call : Op → State → State × Option Bool) (xs ys : List Op)
    (s : State) :
    finalState call (xs ++ ys) s = finalState call ys (finalState call xs s) := by
  induction xs generalizing s with
  | nil => rfl
  | cons o os ih => simp [finalState, ih]

theorem decReturns_append (call : Op → State → State × Option Bool) (xs ys : List Op)
    (s : State) :
    decReturns call (xs ++ ys) s
      = decReturns call xs s ++ decReturns call ys (finalState call xs s) := by
  induction xs generalizing s with
  | nil => rfl
  | cons o os ih => simp [finalState, decReturns, ih]

theorem decReturns_incs (call : Op → State → State × Option Bool) (k : Nat) (s : State) :
    decReturns call (List.replicate k Op.inc) s = [] := by
  induction k generalizing s with
  | zero => rfl
  | succ k ih => simp [List.replicate_succ, decReturns, decReturn, ih]

/-- Plain counter: `k` retains on a live cell that has room for them. -/
theorem plain_incs_value (rc : Nat) (hrc : rc ≠ NULL) (k : Nat) (s : State)
    (hlive : cellValue rc s < 0) (hroom : G_MININT ≤ cellValue rc s - k) :
    cellValue rc (finalState (plainCall rc) (List.replicate k Op.inc) s)
      = cellValue rc s - k := by
  induction k generalizing s with
  | zero => simp [finalState]
  | succ k ih =>
    have hstep : cellValue rc (g_ref_count_inc rc s) = cellValue rc s - 1 := by
      rw [plain_inc_value rc s hrc, if_pos hlive]
      apply wrapGint_of_range
      · push_cast at hroom; omega
      · unfold G_MAXINT; omega
    have h := ih (g_ref_count_inc rc s) (by rw [hstep]; omega)
      (by rw [hstep]; push_cast at hroom; omega)
    simp only [List.replicate_succ, finalState, plainCall]
    rw [h, hstep]
    push_cast
    omega

/-- Plain counter: `k` releases that stop short of the last reference. -/
theorem plain_decs_live (rc : Nat) (hrc : rc ≠ NULL) (k : Nat) (s : State)
    (hmin : G_MININT ≤ cellValue rc s) (hleft : cellValue rc s + k < 0) :
    cellValue rc (finalState (plainCall rc) (List.replicate k Op.dec) s) = cellValue rc s + k
      ∧ decReturns (plainCall rc) (List.replicate k Op.dec) s = List.replicate k false := by
  induction k generalizing s with
  | zero => simp [finalState, decReturns]
  | succ k ih =>
    push_cast at hleft
    have hlive : cellValue rc s < 0 := by omega
    have hw : wrapGint (cellValue rc s + 1) = cellValue rc s + 1 := by
      apply wrapGint_of_range
      · omega
      · unfold G_MAXINT; omega
    have hstep : cellValue rc (g_ref_count_dec rc s).1 = cellValue rc s + 1 := by
      rw [plain_dec_value rc s hrc, if_pos hlive, hw]
    have hret : (g_ref_count_dec rc s).2 = false := by
      rw [plain_dec_ret rc s hrc, hw]
      simp only [decide_eq_false_iff_not, not_and]
      intro _
      omega
    have h := ih (g_ref_count_dec rc s).1 (by rw [hstep]; omega) (by rw [hstep]; omega)
    simp only [List.replicate_succ, finalState, decReturns, plainCall, decReturn, hret]
    rw [h.1, h.2, hstep]
    refine ⟨?_, rfl⟩
    push_cast
    omega

/-- Plain counter: releases on a cell that is not live all fail. -/
theorem plain_decs_dead (rc : Nat) (k : Nat) (s : State) (hdead : 0 ≤ cellValue rc s) :
    (finalState (plainCall rc) (List.replicate k Op.dec) s).mem = s.mem
      ∧ (finalState (plainCall rc) (List.replicate k Op.dec) s).criticals = s.criticals + k
      ∧ decReturns (plainCall rc) (List.replicate k Op.dec) s = List.replicate k false := by
  induction k generalizing s with
  | zero => simp [finalState, decReturns]
  | succ k ih =>
    have hnl : ¬ s.mem rc < 0 := by unfold cellValue at hdead; omega
    have h1 : g_ref_count_dec rc s = (g_return_if_fail_warning s, false) := by
      by_cases hrc : rc = NULL
      · simp [g_ref_count_dec, hrc]
      · simp [g_ref_count_dec, State.load, hrc, hnl]
    have h := ih (g_return_if_fail_warning s) (by simpa [g_return_if_fail_warning, cellValue] using hdead)
    simp only [List.replicate_succ, finalState, decReturns, plainCall, decReturn, h1]
    rw [h.1, h.2.1, h.2.2]
    simp [g_return_if_fail_warning]
    omega

/-- Plain counter: retains on a cell that is not live all fail. -/
theorem plain_incs_dead (rc : Nat) (k : Nat) (s : State) (hdead : 0 ≤ cellValue rc s) :
    (finalState (plainCall rc) (List.replicate k Op.inc) s).mem = s.mem := by
  induction k generalizing s with
  | zero => simp [finalState]
  | succ k ih =>
    have hnl : ¬ s.mem rc < 0 := by unfold cellValue at hdead; omega
    have h1 : g_ref_count_inc rc s = g_return_if_fail_warning s := by
      by_cases hrc : rc = NULL
      · simp [g_ref_count_inc, hrc]
      · simp [g_ref_count_inc, State.load, hrc, hnl]
    have h := ih (g_return_if_fail_warning s)
      (by simpa [g_return_if_fail_warning, cellValue] using hdead)
    simp only [List.replicate_succ, finalState, plainCall, h1]
    rw [h]
    rfl

/-- Atomic counter: `k` retains on a live cell that has room for them. -/
theorem atomic_incs_value (arc : Nat) (harc : arc ≠ NULL) (k : Nat) (s : State)
    (hlive : 0 < cellValue arc s) (hroom : cellValue arc s + k ≤ G_MAXINT) :
    cellValue arc (finalState (atomicCall arc) (List.replicate k Op.inc) s)
      = cellValue arc s + k := by
  induction k generalizing s with
  | zero => simp [finalState]
  | succ k ih =>
    have hstep : cellValue arc (g_atomic_ref_count_inc arc s) = cellValue arc s + 1 := by
      rw [atomic_inc_value arc s harc, if_pos hlive]
      apply wrapGint_of_range
      · unfold G_MININT; omega
      · push_cast at hroom; omega
    have h := ih (g_atomic_ref_count_inc arc s) (by rw [hstep]; omega)
      (by rw [hstep]; push_cast at hroom; omega)
    simp only [List.replicate_succ, finalState, atomicCall]
    rw [h, hstep]
    push_cast
    omega

/-- Atomic counter: `k` releases that stop short of the last reference. -/
theorem atomic_decs_live (arc : Nat) (harc : arc ≠ NULL) (k : Nat) (s : State)
    (hmax : cellValue arc s ≤ G_MAXINT) (hleft : 0 < cellValue arc s - k) :
    cellValue arc (finalState (atomicCall arc) (List.replicate k Op.dec) s)
        = cellValue arc s - k
      ∧ decReturns (atomicCall arc) (List.replicate k Op.dec) s = List.replicate k false := by
  induction k generalizing s with
  | zero => simp [finalState, decReturns]
  | succ k ih =>
    push_cast at hleft
    have hlive : 0 < cellValue arc s := by omega
    have hw : wrapGint (cellValue arc s - 1) = cellValue arc s - 1 := by
      apply wrapGint_of_range
      · unfold G_MININT; omega
      · omega
    have hstep : cellValue arc (g_atomic_ref_count_dec arc s).1 = cellValue arc s - 1 := by
      rw [atomic_dec_value arc s harc, if_pos hlive, hw]
    have hret : (g_atomic_ref_count_dec arc s).2 = false := by
      rw [atomic_dec_ret arc s harc, hw]
      simp only [decide_eq_false_iff_not, not_and]
      intro _
      omega
    have h := ih (g_atomic_ref_count_dec arc s).1 (by rw [hstep]; omega) (by rw [hstep]; omega)
    simp only [List.replicate_succ, finalState, decReturns, atomicCall, decReturn, hret]
    rw [h.1, h.2, hstep]
    refine ⟨?_, rfl⟩
    push_cast
    omega

/-- Atomic counter: releases on a cell that is not live all fail. -/
theorem atomic_decs_dead (arc : Nat) (k : Nat) (s : State) (hdead : cellValue arc s ≤ 0) :
    (finalState (atomicCall arc) (List.replicate k Op.dec) s).mem = s.mem
      ∧ (finalState (atomicCall arc) (List.replicate k Op.dec) s).criticals = s.criticals + k
      ∧ decReturns (atomicCall arc) (List.replicate k Op.dec) s = List.replicate k false := by
  induction k generalizing s with
  | zero => simp [finalState, decReturns]
  | succ k ih =>
    have hnl : ¬ 0 < s.mem arc := by unfold cellValue at hdead; omega
    have h1 : g_atomic_ref_count_dec arc s = (g_return_if_fail_warning s, false) := by
      by_cases harc : arc = NULL
      · simp [g_atomic_ref_count_dec, harc]
      · simp [g_atomic_ref_count_dec, g_atomic_int_get, State.load, harc, hnl]
    have h := ih (g_return_if_fail_warning s)
      (by simpa [g_return_if_fail_warning, cellValue] using hdead)
    simp only [List.replicate_succ, finalState, decReturns, atomicCall, decReturn, h1]
    rw [h.1, h.2.1, h.2.2]
    simp [g_return_if_fail_warning]
    omega

/-- Atomic counter: retains on a cell that is not live all fail. -/
theorem atomic_incs_dead (arc : Nat) (k : Nat) (s : State) (hdead : cellValue arc s ≤ 0) :
    (finalState (atomicCall arc) (List.replicate k Op.inc) s).mem = s.mem := by
  induction k generalizing s with
  | zero => simp [finalState]
  | succ k ih =>
    have hnl : ¬ 0 < s.mem arc := by unfold cellValue at hdead; omega
    have h1 : g_atomic_ref_count_inc arc s = g_return_if_fail_warning s := by
      by_cases harc : arc = NULL
      · simp [g_atomic_ref_count_inc, harc]
      · simp [g_atomic_ref_count_inc, g_atomic_int_get, State.load, harc, hnl]
    have h := ih (g_return_if_fail_warning s)
      (by simpa [g_return_if_fail_warning, cellValue] using hdead)
    simp only [List.replicate_succ, finalState, atomicCall, h1]
    rw [h]
    rfl

/-- Plain counter: from `2^31` retains on, the cell holds `G_MAXINT`. The retain
made on `G_MININT` wraps around, and every later one fails its check. -/
theorem plain_incs_overflow (rc : Nat) (hrc : rc ≠ NULL) (s : State) (k : Nat)
    (hk : 2147483648 ≤ k) :
    cellValue rc (finalState (plainCall rc) (List.replicate k Op.inc) (g_ref_count_init rc s))
      = G_MAXINT := by
  obtain ⟨j, rfl⟩ : ∃ j, k = 2147483647 + (1 + j) := ⟨k - 2147483648, by omega⟩
  rw [List.replicate_add, List.replicate_add, finalState_append, finalState_append]
  have h0 := plain_init_value rc s hrc
  have h1 := plain_incs_value rc hrc 2147483647 (g_ref_count_init rc s)
    (by rw [h0]; decide) (by rw [h0]; decide)
  rw [h0] at h1
  have h2 : cellValue rc (finalState (plainCall rc) (List.replicate 1 Op.inc)
      (finalState (plainCall rc) (List.replicate 2147483647 Op.inc) (g_ref_count_init rc s)))
      = G_MAXINT := by
    show cellValue rc (g_ref_count_inc rc _) = G_MAXINT
    rw [plain_inc_value rc _ hrc, h1]
    decide
  have h3 := plain_incs_dead rc j _ (by rw [h2]; decide)
  unfold cellValue at h2 ⊢
  rw [h3]
  exact h2

/-- Atomic counter: from `2^31 - 1` retains on, the cell holds `G_MININT`. The
retain made on `G_MAXINT` wraps around, and every later one fails its check. -/
theorem atomic_incs_overflow (arc : Nat) (harc : arc ≠ NULL) (s : State) (k : Nat)
    (hk : 2147483647 ≤ k) :
    cellValue arc
        (finalState (atomicCall arc) (List.replicate k Op.inc) (g_atomic_ref_count_init arc s))
      = G_MININT := by
  obtain ⟨j, rfl⟩ : ∃ j, k = 2147483646 + (1 + j) := ⟨k - 2147483647, by omega⟩
  rw [List.replicate_add, List.replicate_add, finalState_append, finalState_append]
  have h0 := atomic_init_value arc s harc
  have h1 := atomic_incs_value arc harc 2147483646 (g_atomic_ref_count_init arc s)
    (by rw [h0]; decide) (by rw [h0]; decide)
  rw [h0] at h1
  have h2 : cellValue arc (finalState (atomicCall arc) (List.replicate 1 Op.inc)
      (finalState (atomicCall arc) (List.replicate 2147483646 Op.inc)
        (g_atomic_ref_count_init arc s)))
      = G_MININT := by
    show cellValue arc (g_atomic_ref_count_inc arc _) = G_MININT
    rw [atomic_inc_value arc _ harc, h1]
    decide
  have h3 := atomic_incs_dead arc j _ (by rw [h2]; decide)
  unfold cellValue at h2 ⊢
  rw [h3]
  exact h2

/-! ## Retain `N - 1` times, release `N` times -/

/-- C1 (as amended): on the plain counter, for every `N` with `1 ≤ N ≤ 2^31`,
`g_ref_count_init`, then `N - 1` calls of `g_ref_count_inc`, then `N` calls of
`g_ref_count_dec` make the first `N - 1` releases return `FALSE` and the `N`-th
return `TRUE`. -/
theorem plain_release_sequence (rc : Nat) (s : State) (N : Nat) (hrc : rc ≠ NULL)
    (h1 : 1 ≤ N) (hN : N ≤ 2147483648) :
    decReturns (plainCall rc) (List.replicate (N - 1) Op.inc ++ List.replicate N Op.dec)
        (g_ref_count_init rc s)
      = List.replicate (N - 1) false ++ [true] := by
  obtain ⟨n, rfl⟩ : ∃ n, N = n + 1 := ⟨N - 1, by omega⟩
  have h0 := plain_init_value rc s hrc
  have hi := plain_incs_value rc hrc n (g_ref_count_init rc s) (by rw [h0]; decide)
    (by rw [h0]; unfold G_MININT; omega)
  rw [h0] at hi
  have hd := plain_decs_live rc hrc n
    (finalState (plainCall rc) (List.replicate n Op.inc) (g_ref_count_init rc s))
    (by rw [hi]; unfold G_MININT; omega) (by rw [hi]; omega)
  rw [hi] at hd
  have hv : cellValue rc (finalState (plainCall rc) (List.replicate n Op.dec)
      (finalState (plainCall rc) (List.replicate n Op.inc) (g_ref_count_init rc s))) = -1 := by
    rw [hd.1]; omega
  have hlast : (g_ref_count_dec rc (finalState (plainCall rc) (List.replicate n Op.dec)
      (finalState (plainCall rc) (List.replicate n Op.inc) (g_ref_count_init rc s)))).2
      = true := by
    rw [plain_dec_ret rc _ hrc, hv]
    decide
  rw [Nat.add_sub_cancel, List.replicate_succ', decReturns_append, decReturns_append,
    decReturns_incs, hd.2]
  simp only [List.nil_append, decReturns, plainCall, decReturn, hlast, List.append_nil]

/-- Witness of C1 as amended: three references, `N = 3`. -/
theorem plain_release_sequence_witness :
    (1 : Nat) ≠ NULL ∧ 1 ≤ 3 ∧ 3 ≤ 2147483648 ∧
      decReturns (plainCall 1) (List.replicate (3 - 1) Op.inc ++ List.replicate 3 Op.dec)
          (g_ref_count_init 1 zeroState)
        = List.replicate (3 - 1) false ++ [true] :=
  ⟨by decide, by decide, by decide,
    plain_release_sequence 1 zeroState 3 (by decide) (by decide) (by decide)⟩

/-- C1 fails as stated: with `N = 2^31 + 1` the `2^31`-th retain is made on
`G_MININT` and wraps the cell to `G_MAXINT`, after which every one of the `N`
releases fails its check and returns `FALSE`, the `N`-th included. -/
theorem plain_release_sequence_counterexample :
    decReturns (plainCall 1)
        (List.replicate (2147483649 - 1) Op.inc ++ List.replicate 2147483649 Op.dec)
        (g_ref_count_init 1 zeroState)
      = List.replicate 2147483649 false
    ∧ decReturns (plainCall 1)
        (List.replicate (2147483649 - 1) Op.inc ++ List.replicate 2147483649 Op.dec)
        (g_ref_count_init 1 zeroState)
      ≠ List.replicate (2147483649 - 1) false ++ [true] := by
  have hv := plain_incs_overflow 1 (by decide) zeroState (2147483649 - 1) (by decide)
  have hd := plain_decs_dead 1 2147483649 _ (by rw [hv]; decide)
  have heq : decReturns (plainCall 1)
      (List.replicate (2147483649 - 1) Op.inc ++ List.replicate 2147483649 Op.dec)
      (g_ref_count_init 1 zeroState) = List.replicate 2147483649 false := by
    rw [decReturns_append, decReturns_incs, hd.2.2, List.nil_append]
  refine ⟨heq, ?_⟩
  rw [heq]
  intro h
  have hmem : true ∈ List.replicate 2147483649 false := by
    rw [h]
    exact List.mem_append_right _ (List.mem_singleton.mpr rfl)
  exact absurd (List.eq_of_mem_replicate hmem) (by decide)

/-- C2 (as amended): on the atomic counter used from one thread, for every `N`
with `1 ≤ N ≤ 2^31 - 1`, `g_atomic_ref_count_init`, then `N - 1` calls of
`g_atomic_ref_count_inc`, then `N` calls of `g_atomic_ref_count_dec` make the
first `N - 1` releases return `FALSE` and the `N`-th return `TRUE`. -/
theorem atomic_release_sequence (arc : Nat) (s : State) (N : Nat) (harc : arc ≠ NULL)
    (h1 : 1 ≤ N) (hN : N ≤ 2147483647) :
    decReturns (atomicCall arc) (List.replicate (N - 1) Op.inc ++ List.replicate N Op.dec)
        (g_atomic_ref_count_init arc s)
      = List.replicate (N - 1) false ++ [true] := by
  obtain ⟨n, rfl⟩ : ∃ n, N = n + 1 := ⟨N - 1, by omega⟩
  have h0 := atomic_init_value arc s harc
  have hi := atomic_incs_value arc harc n (g_atomic_ref_count_init arc s) (by rw [h0]; decide)
    (by rw [h0]; unfold G_MAXINT; omega)
  rw [h0] at hi
  have hd := atomic_decs_live arc harc n
    (finalState (atomicCall arc) (List.replicate n Op.inc) (g_atomic_ref_count_init arc s))
    (by rw [hi]; unfold G_MAXINT; omega) (by rw [hi]; omega)
  rw [hi] at hd
  have hv : cellValue arc (finalState (atomicCall arc) (List.replicate n Op.dec)
      (finalState (atomicCall arc) (List.replicate n Op.inc)
        (g_atomic_ref_count_init arc s))) = 1 := by
    rw [hd.1]; omega
  have hlast : (g_atomic_ref_count_dec arc (finalState (atomicCall arc)
      (List.replicate n Op.dec) (finalState (atomicCall arc) (List.replicate n Op.inc)
        (g_atomic_ref_count_init arc s)))).2 = true := by
    rw [atomic_dec_ret arc _ harc, hv]
    decide
  rw [Nat.add_sub_cancel, List.replicate_succ', decReturns_append, decReturns_append,
    decReturns_incs, hd.2]
  simp only [List.nil_append, decReturns, atomicCall, decReturn, hlast, List.append_nil]

/-- Witness of C2 as amended: three references, `N = 3`. -/
theorem atomic_release_sequence_witness :
    (1 : Nat) ≠ NULL ∧ 1 ≤ 3 ∧ 3 ≤ 2147483647 ∧
      decReturns (atomicCall 1) (List.replicate (3 - 1) Op.inc ++ List.replicate 3 Op.dec)
          (g_atomic_ref_count_init 1 zeroState)
        = List.replicate (3 - 1) false ++ [true] :=
  ⟨by decide, by decide, by decide,
    atomic_release_sequence 1 zeroState 3 (by decide) (by decide) (by decide)⟩

/-- C2 fails as stated: with `N = 2^31` the last retain is made on `G_MAXINT` and
wraps the cell to `G_MININT`, after which every one of the `N` releases fails
its check and returns `FALSE`, the `N`-th included. -/
theorem atomic_release_sequence_counterexample :
    decReturns (atomicCall 1)
        (List.replicate (2147483648 - 1) Op.inc ++ List.replicate 2147483648 Op.dec)
        (g_atomic_ref_count_init 1 zeroState)
      = List.replicate 2147483648 false
    ∧ decReturns (atomicCall 1)
        (List.replicate (2147483648 - 1) Op.inc ++ List.replicate 2147483648 Op.dec)
        (g_atomic_ref_count_init 1 zeroState)
      ≠ List.replicate (2147483648 - 1) false ++ [true] := by
  have hv := atomic_incs_overflow 1 (by decide) zeroState (2147483648 - 1) (by decide)
  have hd := atomic_decs_dead 1 2147483648 _ (by rw [hv]; decide)
  have heq : decReturns (atomicCall 1)
      (List.replicate (2147483648 - 1) Op.inc ++ List.replicate 2147483648 Op.dec)
      (g_atomic_ref_count_init 1 zeroState) = List.replicate 2147483648 false := by
    rw [decReturns_append, decReturns_incs, hd.2.2, List.nil_append]
  refine ⟨heq, ?_⟩
  rw [heq]
  intro h
  have hmem : true ∈ List.replicate 2147483648 false := by
    rw [h]
    exact List.mem_append_right _ (List.mem_singleton.mpr rfl)
  exact absurd (List.eq_of_mem_replicate hmem) (by decide)

/-! ## The stored value counts the outstanding references -/

theorem take_succ_of_getElem? (ops : List Op) (k : Nat) (o : Op) (h : ops[k]? = some o) :
    ops.take (k + 1) = ops.take k ++ [o] := by
  rw [List.take_succ, h]
  rfl

theorem outstanding_snoc (p : List Op) (o : Op) :
    outstanding (p ++ [o])
      = outstanding p + (if o = Op.inc then 1 else 0) - (if o = Op.dec then 1 else 0) := by
  cases o <;> simp [outstanding, List.count_append, List.count_singleton] <;> omega

theorem finalState_snoc (call : Op → State → State × Option Bool) (p : List Op) (o : Op)
    (s : State) :
    finalState call (p ++ [o]) s = (call o (finalState call p s)).1 := by
  rw [finalState_append]
  rfl

theorem plain_compare_state (rc : Nat) (val : Int) (s : State) (hrc : rc ≠ NULL) :
    (g_ref_count_compare rc val s).1 = s := by
  simp [g_ref_count_compare, hrc]

theorem atomic_compare_state (arc : Nat) (val : Int) (s : State) (harc : arc ≠ NULL) :
    (g_atomic_ref_count_compare arc val s).1 = s := by
  simp [g_atomic_ref_count_compare, harc]

/-- Plain counter: while every call so far was made on a live cell that had room,
the cell holds the negated number of outstanding references. -/
theorem plain_value_outstanding (rc : Nat) (s : State) (ops : List Op) (hrc : rc ≠ NULL)
    (hlive : ∀ k, k < ops.length → 0 < outstanding (ops.take k))
    (hroom : ∀ k, k ≤ ops.length → outstanding (ops.take k) ≤ 2147483648)
    (k : Nat) (hk : k ≤ ops.length) :
    cellValue rc (finalState (plainCall rc) (ops.take k) (g_ref_count_init rc s))
      = - outstanding (ops.take k) := by
  induction k with
  | zero => simp [finalState, outstanding, plain_init_value rc s hrc]
  | succ k ih =>
    have hlt : k < ops.length := by omega
    have ih1 := ih (by omega)
    have hl := hlive k hlt
    have hr1 := hroom k (by omega)
    have hr := hroom (k + 1) hk
    obtain ⟨o, ho⟩ : ∃ o, ops[k]? = some o := ⟨ops[k], List.getElem?_eq_getElem hlt⟩
    rw [take_succ_of_getElem? ops k o ho] at hr ⊢
    rw [outstanding_snoc] at hr ⊢
    rw [finalState_snoc]
    cases o with
    | inc =>
      simp only [plainCall]
      rw [plain_inc_value rc _ hrc, ih1, if_pos (by omega)]
      simp only [if_true, reduceCtorEq, if_false] at hr ⊢
      rw [wrapGint_of_range _ (by unfold G_MININT; omega) (by unfold G_MAXINT; omega)]
      omega
    | dec =>
      simp only [plainCall]
      rw [plain_dec_value rc _ hrc, ih1, if_pos (by omega)]
      simp only [if_true, reduceCtorEq, if_false] at hr ⊢
      rw [wrapGint_of_range _ (by unfold G_MININT; omega) (by unfold G_MAXINT; omega)]
      omega
    | compare val =>
      simp only [plainCall]
      rw [plain_compare_state rc val _ hrc, ih1]
      simp

/-- Atomic counter: while every call so far was made on a live cell that had
room, the cell holds the number of outstanding references. -/
theorem atomic_value_outstanding (arc : Nat) (s : State) (ops : List Op) (harc : arc ≠ NULL)
    (hlive : ∀ k, k < ops.length → 0 < outstanding (ops.take k))
    (hroom : ∀ k, k ≤ ops.length → outstanding (ops.take k) ≤ 2147483647)
    (k : Nat) (hk : k ≤ ops.length) :
    cellValue arc (finalState (atomicCall arc) (ops.take k) (g_atomic_ref_count_init arc s))
      = outstanding (ops.take k) := by
  induction k with
  | zero => simp [finalState, outstanding, atomic_init_value arc s harc]
  | succ k ih =>
    have hlt : k < ops.length := by omega
    have ih1 := ih (by omega)
    have hl := hlive k hlt
    have hr1 := hroom k (by omega)
    have hr := hroom (k + 1) hk
    obtain ⟨o, ho⟩ : ∃ o, ops[k]? = some o := ⟨ops[k], List.getElem?_eq_getElem hlt⟩
    rw [take_succ_of_getElem? ops k o ho] at hr ⊢
    rw [outstanding_snoc] at hr ⊢
    rw [finalState_snoc]
    cases o with
    | inc =>
      simp only [atomicCall]
      rw [atomic_inc_value arc _ harc, ih1, if_pos (by omega)]
      simp only [if_true, reduceCtorEq, if_false] at hr ⊢
      rw [wrapGint_of_range _ (by unfold G_MININT; omega) (by unfold G_MAXINT; omega)]
      omega
    | dec =>
      simp only [atomicCall]
      rw [atomic_dec_value arc _ harc, ih1, if_pos (by omega)]
      simp only [if_true, reduceCtorEq, if_false] at hr ⊢
      rw [wrapGint_of_range _ (by unfold G_MININT; omega) (by unfold G_MAXINT; omega)]
      omega
    | compare val =>
      simp only [atomicCall]
      rw [atomic_compare_state arc val _ harc, ih1]
      simp

theorem outstanding_pos_iff (p : List Op) :
    0 < outstanding p ↔ p.count Op.dec ≤ p.count Op.inc := by
  unfold outstanding
  omega

theorem count_incs_take (n k : Nat) :
    ((List.replicate n Op.inc).take k).count Op.dec = 0
      ∧ ((List.replicate n Op.inc).take k).count Op.inc = min k n := by
  rw [List.take_replicate]
  simp [List.count_replicate]

theorem outstanding_incs (n : Nat) : outstanding (List.replicate n Op.inc) = 1 + n := by
  simp [outstanding, List.count_replicate]

/-- C3 (as amended): for every sequence of calls made after init in which the
counter is live before each call (every proper initial segment has at most as
many `dec` as `inc` calls) and the number of outstanding references
`1 + #inc - #dec` never exceeds `2^31` (plain) or `2^31 - 1` (atomic), the cell
holds `-(1 + #inc - #dec)` for the plain counter and `1 + #inc - #dec` for the
atomic counter after each call, and a `dec` call returns `TRUE` exactly when
`#dec = #inc + 1` after it. -/
theorem stored_value_counts_references (rc arc : Nat) (s : State) (ops : List Op)
    (hrc : rc ≠ NULL) (harc : arc ≠ NULL)
    (hlive : ∀ k, k < ops.length → (ops.take k).count Op.dec ≤ (ops.take k).count Op.inc) :
    ((∀ k, k ≤ ops.length → outstanding (ops.take k) ≤ 2147483648) →
      (∀ k, k ≤ ops.length →
        cellValue rc (finalState (plainCall rc) (ops.take k) (g_ref_count_init rc s))
          = - outstanding (ops.take k))
      ∧ (∀ k, ops[k]? = some Op.dec →
        ((g_ref_count_dec rc
            (finalState (plainCall rc) (ops.take k) (g_ref_count_init rc s))).2 = true
          ↔ (ops.take (k + 1)).count Op.dec = (ops.take (k + 1)).count Op.inc + 1)))
    ∧ ((∀ k, k ≤ ops.length → outstanding (ops.take k) ≤ 2147483647) →
      (∀ k, k ≤ ops.length →
        cellValue arc (finalState (atomicCall arc) (ops.take k) (g_atomic_ref_count_init arc s))
          = outstanding (ops.take k))
      ∧ (∀ k, ops[k]? = some Op.dec →
        ((g_atomic_ref_count_dec arc
            (finalState (atomicCall arc) (ops.take k) (g_atomic_ref_count_init arc s))).2 = true
          ↔ (ops.take (k + 1)).count Op.dec = (ops.take (k + 1)).count Op.inc + 1))) := by
  have hlive1 : ∀ k, k < ops.length → 0 < outstanding (ops.take k) :=
    fun k hk => (outstanding_pos_iff _).mpr (hlive k hk)
  refine ⟨fun hroom => ⟨plain_value_outstanding rc s ops hrc hlive1 hroom, ?_⟩,
    fun hroom => ⟨atomic_value_outstanding arc s ops harc hlive1 hroom, ?_⟩⟩
  · intro k hdec
    have hlt : k < ops.length := by
      rcases Nat.lt_or_ge k ops.length with h | h
      · exact h
      · rw [List.getElem?_eq_none h] at hdec; cases hdec
    have hv := plain_value_outstanding rc s ops hrc hlive1 hroom k (by omega)
    have hl := hlive1 k hlt
    have hr := hroom k (by omega)
    rw [plain_dec_ret rc _ hrc, hv, take_succ_of_getElem? ops k Op.dec hdec,
      wrapGint_of_range _ (by unfold G_MININT; omega) (by unfold G_MAXINT; omega)]
    simp only [decide_eq_true_eq, List.count_append, List.count_singleton, beq_self_eq_true,
      if_true]
    have : (if (Op.dec == Op.inc) = true then 1 else 0) = 0 := by decide
    rw [this]
    unfold outstanding at hl hr ⊢
    omega
  · intro k hdec
    have hlt : k < ops.length := by
      rcases Nat.lt_or_ge k ops.length with h | h
      · exact h
      · rw [List.getElem?_eq_none h] at hdec; cases hdec
    have hv := atomic_value_outstanding arc s ops harc hlive1 hroom k (by omega)
    have hl := hlive1 k hlt
    have hr := hroom k (by omega)
    rw [atomic_dec_ret arc _ harc, hv, take_succ_of_getElem? ops k Op.dec hdec,
      wrapGint_of_range _ (by unfold G_MININT; omega) (by unfold G_MAXINT; omega)]
    simp only [decide_eq_true_eq, List.count_append, List.count_singleton, beq_self_eq_true,
      if_true]
    have : (if (Op.dec == Op.inc) = true then 1 else 0) = 0 := by decide
    rw [this]
    unfold outstanding at hl hr ⊢
    omega

/-- Witness of C3 as amended: retain once, release twice; the values after the
three calls and the return of the last release, for both variants. -/
theorem stored_value_counts_references_witness :
    (1 : Nat) ≠ NULL ∧ (2 : Nat) ≠ NULL
    ∧ (∀ k, k < [Op.inc, Op.dec, Op.dec].length →
        ([Op.inc, Op.dec, Op.dec].take k).count Op.dec
          ≤ ([Op.inc, Op.dec, Op.dec].take k).count Op.inc)
    ∧ (∀ k, k ≤ [Op.inc, Op.dec, Op.dec].length →
        outstanding ([Op.inc, Op.dec, Op.dec].take k) ≤ 2147483648)
    ∧ (∀ k, k ≤ [Op.inc, Op.dec, Op.dec].length →
        outstanding ([Op.inc, Op.dec, Op.dec].take k) ≤ 2147483647)
    ∧ cellValue 1 (finalState (plainCall 1) ([Op.inc, Op.dec, Op.dec].take 3)
          (g_ref_count_init 1 zeroState))
        = - outstanding ([Op.inc, Op.dec, Op.dec].take 3)
    ∧ ((g_ref_count_dec 1 (finalState (plainCall 1) ([Op.inc, Op.dec, Op.dec].take 2)
          (g_ref_count_init 1 zeroState))).2 = true
        ↔ ([Op.inc, Op.dec, Op.dec].take (2 + 1)).count Op.dec
            = ([Op.inc, Op.dec, Op.dec].take (2 + 1)).count Op.inc + 1)
    ∧ cellValue 2 (finalState (atomicCall 2) ([Op.inc, Op.dec, Op.dec].take 3)
          (g_atomic_ref_count_init 2 zeroState))
        = outstanding ([Op.inc, Op.dec, Op.dec].take 3)
    ∧ ((g_atomic_ref_count_dec 2 (finalState (atomicCall 2) ([Op.inc, Op.dec, Op.dec].take 2)
          (g_atomic_ref_count_init 2 zeroState))).2 = true
        ↔ ([Op.inc, Op.dec, Op.dec].take (2 + 1)).count Op.dec
            = ([Op.inc, Op.dec, Op.dec].take (2 + 1)).count Op.inc + 1) :=
  ⟨by decide, by decide, by decide, by decide, by decide,
    ((stored_value_counts_references 1 2 zeroState [Op.inc, Op.dec, Op.dec] (by decide)
      (by decide) (by decide)).1 (by decide)).1 3 (by decide),
    ((stored_value_counts_references 1 2 zeroState [Op.inc, Op.dec, Op.dec] (by decide)
      (by decide) (by decide)).1 (by decide)).2 2 rfl,
    ((stored_value_counts_references 1 2 zeroState [Op.inc, Op.dec, Op.dec] (by decide)
      (by decide) (by decide)).2 (by decide)).1 3 (by decide),
    ((stored_value_counts_references 1 2 zeroState [Op.inc, Op.dec, Op.dec] (by decide)
      (by decide) (by decide)).2 (by decide)).2 2 rfl⟩

/-- C3 fails as stated: `2^31` retains in a row keep the plain counter live before
each call by the count of calls, yet the last of them is made on `G_MININT` and
leaves `G_MAXINT` in the cell, not `-(1 + 2^31)`. -/
theorem stored_value_counts_references_counterexample :
    (∀ k, k < (List.replicate 2147483648 Op.inc).length →
        ((List.replicate 2147483648 Op.inc).take k).count Op.dec
          ≤ ((List.replicate 2147483648 Op.inc).take k).count Op.inc)
    ∧ cellValue 1 (finalState (plainCall 1) (List.replicate 2147483648 Op.inc)
          (g_ref_count_init 1 zeroState)) = 2147483647
    ∧ - outstanding (List.replicate 2147483648 Op.inc) = -2147483649
    ∧ cellValue 1 (finalState (plainCall 1) (List.replicate 2147483648 Op.inc)
          (g_ref_count_init 1 zeroState))
        ≠ - outstanding (List.replicate 2147483648 Op.inc) := by
  have hv : cellValue 1 (finalState (plainCall 1) (List.replicate 2147483648 Op.inc)
      (g_ref_count_init 1 zeroState)) = 2147483647 :=
    plain_incs_overflow 1 (by decide) zeroState 2147483648 (by decide)
  have ho : - outstanding (List.replicate 2147483648 Op.inc) = -2147483649 := by
    rw [outstanding_incs]
    decide
  refine ⟨fun k _ => ?_, hv, ho, ?_⟩
  · rw [(count_incs_take 2147483648 k).1]
    exact Nat.zero_le _
  · rw [hv, ho]
    decide

/-! ## One release on a live cell -/

/-- C4: on a cell holding a strictly negative `gint` `v`, `g_ref_count_dec` stores
`v + 1` and returns `TRUE` if and only if `v + 1 = 0`; on a cell holding a
strictly positive `gint` `v`, `g_atomic_ref_count_dec` stores `v - 1` and returns
`TRUE` if and only if `v - 1 = 0`. -/
theorem dec_moves_toward_zero (rc arc : Nat) (s : State) (v : Int)
    (hrc : rc ≠ NULL) (harc : arc ≠ NULL) (hmin : G_MININT ≤ v) (hmax : v ≤ G_MAXINT) :
    (cellValue rc s = v → v < 0 →
        cellValue rc (g_ref_count_dec rc s).1 = v + 1
        ∧ ((g_ref_count_dec rc s).2 = true ↔ v + 1 = 0))
    ∧ (cellValue arc s = v → 0 < v →
        cellValue arc (g_atomic_ref_count_dec arc s).1 = v - 1
        ∧ ((g_atomic_ref_count_dec arc s).2 = true ↔ v - 1 = 0)) := by
  constructor
  · intro hv hneg
    have hw : wrapGint (v + 1) = v + 1 :=
      wrapGint_of_range _ (by omega) (by unfold G_MAXINT; omega)
    rw [plain_dec_value rc s hrc, plain_dec_ret rc s hrc, hv, if_pos hneg, hw]
    simp [hneg]
  · intro hv hpos
    have hw : wrapGint (v - 1) = v - 1 :=
      wrapGint_of_range _ (by unfold G_MININT; omega) (by omega)
    rw [atomic_dec_value arc s harc, atomic_dec_ret arc s harc, hv, if_pos hpos, hw]
    simp [hpos]

/-- Witness of C4: the last release of a plain cell holding `-1` and a release
that is not the last of an atomic cell holding `7`. -/
theorem dec_moves_toward_zero_witness :
    ((1 : Nat) ≠ NULL ∧ G_MININT ≤ -1 ∧ (-1 : Int) ≤ G_MAXINT
      ∧ cellValue 1 (constState (-1)) = -1 ∧ (-1 : Int) < 0
      ∧ cellValue 1 (g_ref_count_dec 1 (constState (-1))).1 = -1 + 1
      ∧ ((g_ref_count_dec 1 (constState (-1))).2 = true ↔ (-1 : Int) + 1 = 0))
    ∧ (G_MININT ≤ 7 ∧ (7 : Int) ≤ G_MAXINT
      ∧ cellValue 1 (constState 7) = 7 ∧ (0 : Int) < 7
      ∧ cellValue 1 (g_atomic_ref_count_dec 1 (constState 7)).1 = 7 - 1
      ∧ ((g_atomic_ref_count_dec 1 (constState 7)).2 = true ↔ (7 : Int) - 1 = 0)) :=
  ⟨⟨by decide, by decide, by decide, rfl, by decide,
      (dec_moves_toward_zero 1 1 (constState (-1)) (-1) (by decide) (by decide) (by decide)
        (by decide)).1 rfl (by decide)⟩,
    ⟨by decide, by decide, rfl, by decide,
      (dec_moves_toward_zero 1 1 (constState 7) 7 (by decide) (by decide) (by decide)
        (by decide)).2 rfl (by decide)⟩⟩

/-! ## Failed checks leave the cell alone -/

/-- C5: on a cell whose value `v` is not live (`v ≥ 0` for the plain counter,
`v ≤ 0` for the atomic counter), `inc` leaves memory as it was, and `dec` leaves
memory as it was and returns `FALSE`. -/
theorem failed_check_leaves_cell (rc arc : Nat) (s : State) :
    (0 ≤ cellValue rc s →
        (g_ref_count_inc rc s).mem = s.mem
        ∧ (g_ref_count_dec rc s).1.mem = s.mem
        ∧ (g_ref_count_dec rc s).2 = false)
    ∧ (cellValue arc s ≤ 0 →
        (g_atomic_ref_count_inc arc s).mem = s.mem
        ∧ (g_atomic_ref_count_dec arc s).1.mem = s.mem
        ∧ (g_atomic_ref_count_dec arc s).2 = false) := by
  constructor
  · intro h
    have hnl : ¬ s.mem rc < 0 := by unfold cellValue at h; omega
    by_cases hrc : rc = NULL
    · simp [g_ref_count_inc, g_ref_count_dec, g_return_if_fail_warning, hrc]
    · simp [g_ref_count_inc, g_ref_count_dec, g_return_if_fail_warning, State.load, hrc, hnl]
  · intro h
    have hnl : ¬ 0 < s.mem arc := by unfold cellValue at h; omega
    by_cases harc : arc = NULL
    · simp [g_atomic_ref_count_inc, g_atomic_ref_count_dec, g_return_if_fail_warning, harc]
    · simp [g_atomic_ref_count_inc, g_atomic_ref_count_dec, g_atomic_int_get,
        g_return_if_fail_warning, State.load, harc, hnl]

/-- Witness of C5: a plain cell holding `5` and an atomic cell holding `-3`. -/
theorem failed_check_leaves_cell_witness :
    ((0 : Int) ≤ cellValue 1 (constState 5)
      ∧ (g_ref_count_inc 1 (constState 5)).mem = (constState 5).mem
      ∧ (g_ref_count_dec 1 (constState 5)).1.mem = (constState 5).mem
      ∧ (g_ref_count_dec 1 (constState 5)).2 = false)
    ∧ (cellValue 1 (constState (-3)) ≤ 0
      ∧ (g_atomic_ref_count_inc 1 (constState (-3))).mem = (constState (-3)).mem
      ∧ (g_atomic_ref_count_dec 1 (constState (-3))).1.mem = (constState (-3)).mem
      ∧ (g_atomic_ref_count_dec 1 (constState (-3))).2 = false) :=
  ⟨⟨by decide, (failed_check_leaves_cell 1 1 (constState 5)).1 (by decide)⟩,
    ⟨by decide, (failed_check_leaves_cell 1 1 (constState (-3))).2 (by decide)⟩⟩

/-! ## Releasing past zero -/

theorem plain_dec_true_zero (rc : Nat) (s : State) (hrc : rc ≠ NULL)
    (h : (g_ref_count_dec rc s).2 = true) : cellValue rc (g_ref_count_dec rc s).1 = 0 := by
  rw [plain_dec_ret rc s hrc, decide_eq_true_eq] at h
  rw [plain_dec_value rc s hrc, if_pos h.1, h.2]

theorem atomic_dec_true_zero (arc : Nat) (s : State) (harc : arc ≠ NULL)
    (h : (g_atomic_ref_count_dec arc s).2 = true) :
    cellValue arc (g_atomic_ref_count_dec arc s).1 = 0 := by
  rw [atomic_dec_ret arc s harc, decide_eq_true_eq] at h
  rw [atomic_dec_value arc s harc, if_pos h.1, h.2]

theorem plain_last_return (rc : Nat) (p : List Op) (s : State) :
    (decReturns (plainCall rc) (p ++ [Op.dec]) s).getLast?
      = some (g_ref_count_dec rc (finalState (plainCall rc) p s)).2 := by
  rw [decReturns_append]
  simp [decReturns, decReturn, plainCall]

theorem atomic_last_return (arc : Nat) (p : List Op) (s : State) :
    (decReturns (atomicCall arc) (p ++ [Op.dec]) s).getLast?
      = some (g_atomic_ref_count_dec arc (finalState (atomicCall arc) p s)).2 := by
  rw [decReturns_append]
  simp [decReturns, decReturn, atomicCall]

theorem incs_decs_snoc (k : Nat) :
    List.replicate k Op.inc ++ List.replicate (k + 1) Op.dec
      = (List.replicate k Op.inc ++ List.replicate k Op.dec) ++ [Op.dec] := by
  rw [List.replicate_succ', List.append_assoc]

/-- Plain counter: after init, `k` retains and `k` releases, with `k < 2^31`, one
reference is left. -/
theorem plain_one_left (rc : Nat) (hrc : rc ≠ NULL) (s : State) (k : Nat)
    (hk : k ≤ 2147483647) :
    cellValue rc (finalState (plainCall rc)
        (List.replicate k Op.inc ++ List.replicate k Op.dec) (g_ref_count_init rc s)) = -1 := by
  have h0 := plain_init_value rc s hrc
  have hi := plain_incs_value rc hrc k (g_ref_count_init rc s) (by rw [h0]; decide)
    (by rw [h0]; unfold G_MININT; omega)
  rw [h0] at hi
  have hd := plain_decs_live rc hrc k
    (finalState (plainCall rc) (List.replicate k Op.inc) (g_ref_count_init rc s))
    (by rw [hi]; unfold G_MININT; omega) (by rw [hi]; omega)
  rw [finalState_append, hd.1, hi]
  omega

/-- Atomic counter: after init, `k` retains and `k` releases, with `k < 2^31 - 1`,
one reference is left. -/
theorem atomic_one_left (arc : Nat) (harc : arc ≠ NULL) (s : State) (k : Nat)
    (hk : k ≤ 2147483646) :
    cellValue arc (finalState (atomicCall arc)
        (List.replicate k Op.inc ++ List.replicate k Op.dec)
        (g_atomic_ref_count_init arc s)) = 1 := by
  have h0 := atomic_init_value arc s harc
  have hi := atomic_incs_value arc harc k (g_atomic_ref_count_init arc s)
    (by rw [h0]; decide) (by rw [h0]; unfold G_MAXINT; omega)
  rw [h0] at hi
  have hd := atomic_decs_live arc harc k
    (finalState (atomicCall arc) (List.replicate k Op.inc) (g_atomic_ref_count_init arc s))
    (by rw [hi]; unfold G_MAXINT; omega) (by rw [hi]; omega)
  rw [finalState_append, hd.1, hi]
  omega

/-- Plain counter: from `2^31` retains on, the `k + 1` releases that follow leave
the cell at `G_MAXINT`, the last of them returns `FALSE`, and so does any
number of further releases. -/
theorem plain_past_overflow (rc : Nat) (hrc : rc ≠ NULL) (s : State) (k m : Nat)
    (hk : 2147483648 ≤ k) :
    (decReturns (plainCall rc) (List.replicate k Op.inc ++ List.replicate (k + 1) Op.dec)
        (g_ref_count_init rc s)).getLast? = some false
    ∧ cellValue rc (finalState (plainCall rc) (List.replicate m Op.dec)
        (finalState (plainCall rc) (List.replicate k Op.inc ++ List.replicate (k + 1) Op.dec)
          (g_ref_count_init rc s))) = G_MAXINT := by
  have hv := plain_incs_overflow rc hrc s k hk
  have hdead : ∀ n, cellValue rc (finalState (plainCall rc)
      (List.replicate k Op.inc ++ List.replicate n Op.dec) (g_ref_count_init rc s))
      = G_MAXINT := by
    intro n
    rw [finalState_append]
    have hd := plain_decs_dead rc n _ (by rw [hv]; decide)
    unfold cellValue at hv ⊢
    rw [hd.1]
    exact hv
  constructor
  · rw [incs_decs_snoc, plain_last_return, plain_dec_ret rc _ hrc, hdead k]
    decide
  · have hd := plain_decs_dead rc m (finalState (plainCall rc)
      (List.replicate k Op.inc ++ List.replicate (k + 1) Op.dec) (g_ref_count_init rc s))
      (by rw [hdead (k + 1)]; decide)
    have h1 := hdead (k + 1)
    unfold cellValue at h1 ⊢
    rw [hd.1]
    exact h1

/-- C6 (as amended): for every `k ≤ 2^31 - 1` on the plain counter and every
`k ≤ 2^31 - 2` on the atomic counter, after init, `k` calls of `inc` and `k + 1`
calls of `dec`, the last of these releases has returned `TRUE`, and any number
`m` of further `dec` calls all return `FALSE`, report one violation each, and
leave the stored value at `0`. -/
theorem release_past_zero_caught (rc arc : Nat) (s : State) (k m : Nat)
    (hrc : rc ≠ NULL) (harc : arc ≠ NULL) :
    (k ≤ 2147483647 →
      (decReturns (plainCall rc) (List.replicate k Op.inc ++ List.replicate (k + 1) Op.dec)
          (g_ref_count_init rc s)).getLast? = some true
      ∧ decReturns (plainCall rc) (List.replicate m Op.dec)
          (finalState (plainCall rc) (List.replicate k Op.inc ++ List.replicate (k + 1) Op.dec)
            (g_ref_count_init rc s))
        = List.replicate m false
      ∧ (finalState (plainCall rc) (List.replicate m Op.dec)
          (finalState (plainCall rc) (List.replicate k Op.inc ++ List.replicate (k + 1) Op.dec)
            (g_ref_count_init rc s))).criticals
        = (finalState (plainCall rc) (List.replicate k Op.inc ++ List.replicate (k + 1) Op.dec)
            (g_ref_count_init rc s)).criticals + m
      ∧ cellValue rc (finalState (plainCall rc) (List.replicate m Op.dec)
          (finalState (plainCall rc) (List.replicate k Op.inc ++ List.replicate (k + 1) Op.dec)
            (g_ref_count_init rc s))) = 0)
    ∧ (k ≤ 2147483646 →
      (decReturns (atomicCall arc) (List.replicate k Op.inc ++ List.replicate (k + 1) Op.dec)
          (g_atomic_ref_count_init arc s)).getLast? = some true
      ∧ decReturns (atomicCall arc) (List.replicate m Op.dec)
          (finalState (atomicCall arc) (List.replicate k Op.inc ++ List.replicate (k + 1) Op.dec)
            (g_atomic_ref_count_init arc s))
        = List.replicate m false
      ∧ (finalState (atomicCall arc) (List.replicate m Op.dec)
          (finalState (atomicCall arc) (List.replicate k Op.inc ++ List.replicate (k + 1) Op.dec)
            (g_atomic_ref_count_init arc s))).criticals
        = (finalState (atomicCall arc) (List.replicate k Op.inc ++ List.replicate (k + 1) Op.dec)
            (g_atomic_ref_count_init arc s)).criticals + m
      ∧ cellValue arc (finalState (atomicCall arc) (List.replicate m Op.dec)
          (finalState (atomicCall arc) (List.replicate k Op.inc ++ List.replicate (k + 1) Op.dec)
            (g_atomic_ref_count_init arc s))) = 0) := by
  constructor
  · intro hk
    have hone := plain_one_left rc hrc s k hk
    have htrue : (g_ref_count_dec rc (finalState (plainCall rc)
        (List.replicate k Op.inc ++ List.replicate k Op.dec) (g_ref_count_init rc s))).2
        = true := by
      rw [plain_dec_ret rc _ hrc, hone]
      decide
    have hz : cellValue rc (finalState (plainCall rc)
        (List.replicate k Op.inc ++ List.replicate (k + 1) Op.dec) (g_ref_count_init rc s))
        = 0 := by
      rw [incs_decs_snoc, finalState_snoc]
      exact plain_dec_true_zero rc _ hrc htrue
    have hd := plain_decs_dead rc m _ (le_of_eq hz.symm)
    refine ⟨?_, hd.2.2, hd.2.1, ?_⟩
    · rw [incs_decs_snoc, plain_last_return, htrue]
    · unfold cellValue at hz ⊢
      rw [hd.1]
      exact hz
  · intro hk
    have hone := atomic_one_left arc harc s k hk
    have htrue : (g_atomic_ref_count_dec arc (finalState (atomicCall arc)
        (List.replicate k Op.inc ++ List.replicate k Op.dec)
        (g_atomic_ref_count_init arc s))).2 = true := by
      rw [atomic_dec_ret arc _ harc, hone]
      decide
    have hz : cellValue arc (finalState (atomicCall arc)
        (List.replicate k Op.inc ++ List.replicate (k + 1) Op.dec)
        (g_atomic_ref_count_init arc s)) = 0 := by
      rw [incs_decs_snoc, finalState_snoc]
      exact atomic_dec_true_zero arc _ harc htrue
    have hd := atomic_decs_dead arc m _ (le_of_eq hz)
    refine ⟨?_, hd.2.2, hd.2.1, ?_⟩
    · rw [incs_decs_snoc, atomic_last_return, htrue]
    · unfold cellValue at hz ⊢
      rw [hd.1]
      exact hz

/-- Witness of C6 as amended: one retain, two releases, then two releases too
many. -/
theorem release_past_zero_caught_witness :
    (1 : Nat) ≠ NULL ∧ (2 : Nat) ≠ NULL
    ∧ (1 ≤ 2147483647
      ∧ (decReturns (plainCall 1) (List.replicate 1 Op.inc ++ List.replicate (1 + 1) Op.dec)
          (g_ref_count_init 1 zeroState)).getLast? = some true
      ∧ decReturns (plainCall 1) (List.replicate 2 Op.dec)
          (finalState (plainCall 1) (List.replicate 1 Op.inc ++ List.replicate (1 + 1) Op.dec)
            (g_ref_count_init 1 zeroState))
        = List.replicate 2 false
      ∧ (finalState (plainCall 1) (List.replicate 2 Op.dec)
          (finalState (plainCall 1) (List.replicate 1 Op.inc ++ List.replicate (1 + 1) Op.dec)
            (g_ref_count_init 1 zeroState))).criticals
        = (finalState (plainCall 1) (List.replicate 1 Op.inc ++ List.replicate (1 + 1) Op.dec)
            (g_ref_count_init 1 zeroState)).criticals + 2
      ∧ cellValue 1 (finalState (plainCall 1) (List.replicate 2 Op.dec)
          (finalState (plainCall 1) (List.replicate 1 Op.inc ++ List.replicate (1 + 1) Op.dec)
            (g_ref_count_init 1 zeroState))) = 0)
    ∧ (1 ≤ 2147483646
      ∧ (decReturns (atomicCall 2) (List.replicate 1 Op.inc ++ List.replicate (1 + 1) Op.dec)
          (g_atomic_ref_count_init 2 zeroState)).getLast? = some true
      ∧ decReturns (atomicCall 2) (List.replicate 2 Op.dec)
          (finalState (atomicCall 2) (List.replicate 1 Op.inc ++ List.replicate (1 + 1) Op.dec)
            (g_atomic_ref_count_init 2 zeroState))
        = List.replicate 2 false
      ∧ (finalState (atomicCall 2) (List.replicate 2 Op.dec)
          (finalState (atomicCall 2) (List.replicate 1 Op.inc ++ List.replicate (1 + 1) Op.dec)
            (g_atomic_ref_count_init 2 zeroState))).criticals
        = (finalState (atomicCall 2) (List.replicate 1 Op.inc ++ List.replicate (1 + 1) Op.dec)
            (g_atomic_ref_count_init 2 zeroState)).criticals + 2
      ∧ cellValue 2 (finalState (atomicCall 2) (List.replicate 2 Op.dec)
          (finalState (atomicCall 2) (List.replicate 1 Op.inc ++ List.replicate (1 + 1) Op.dec)
            (g_atomic_ref_count_init 2 zeroState))) = 0) :=
  ⟨by decide, by decide,
    ⟨by decide,
      (release_past_zero_caught 1 2 zeroState 1 2 (by decide) (by decide)).1 (by decide)⟩,
    ⟨by decide,
      (release_past_zero_caught 1 2 zeroState 1 2 (by decide) (by decide)).2 (by decide)⟩⟩

/-- C6 fails as stated: with `k = 2^31` the last retain is made on `G_MININT` and
leaves `G_MAXINT`, so the last of the `k + 1` releases returns `FALSE`, not
`TRUE`, and after a further release the plain cell holds `G_MAXINT`, not `0`. -/
theorem release_past_zero_caught_counterexample :
    (decReturns (plainCall 1)
        (List.replicate 2147483648 Op.inc ++ List.replicate (2147483648 + 1) Op.dec)
        (g_ref_count_init 1 zeroState)).getLast? = some false
    ∧ cellValue 1 (finalState (plainCall 1) (List.replicate 1 Op.dec)
        (finalState (plainCall 1)
          (List.replicate 2147483648 Op.inc ++ List.replicate (2147483648 + 1) Op.dec)
          (g_ref_count_init 1 zeroState))) = 2147483647
    ∧ cellValue 1 (finalState (plainCall 1) (List.replicate 1 Op.dec)
        (finalState (plainCall 1)
          (List.replicate 2147483648 Op.inc ++ List.replicate (2147483648 + 1) Op.dec)
          (g_ref_count_init 1 zeroState))) ≠ 0 := by
  have h := plain_past_overflow 1 (by decide) zeroState 2147483648 1 (by decide)
  refine ⟨h.1, h.2, ?_⟩
  rw [h.2]
  decide

/-! ## The valid domain -/

/-- Plain counter: as long as no retain is made on `G_MININT`, the cell stays
between `G_MININT` and `0`. -/
theorem plain_domain (rc : Nat) (s : State) (ops : List Op) (hrc : rc ≠ NULL)
    (hroom : ∀ k, k < ops.length → ops[k]? = some Op.inc →
      cellValue rc (finalState (plainCall rc) (ops.take k) (g_ref_count_init rc s)) ≠ G_MININT)
    (k : Nat) (hk : k ≤ ops.length) :
    G_MININT ≤ cellValue rc (finalState (plainCall rc) (ops.take k) (g_ref_count_init rc s))
      ∧ cellValue rc (finalState (plainCall rc) (ops.take k) (g_ref_count_init rc s)) ≤ 0 := by
  induction k with
  | zero =>
    simp only [List.take_zero, finalState]
    rw [plain_init_value rc s hrc]
    decide
  | succ k ih =>
    have hlt : k < ops.length := by omega
    have ih1 := ih (by omega)
    obtain ⟨o, ho⟩ : ∃ o, ops[k]? = some o := ⟨ops[k], List.getElem?_eq_getElem hlt⟩
    rw [take_succ_of_getElem? ops k o ho, finalState_snoc]
    cases o with
    | inc =>
      have hne := hroom k hlt ho
      simp only [plainCall]
      rw [plain_inc_value rc _ hrc]
      split
      · rw [wrapGint_of_range _ (by omega) (by unfold G_MAXINT; omega)]
        omega
      · exact ih1
    | dec =>
      simp only [plainCall]
      rw [plain_dec_value rc _ hrc]
      split
      · rw [wrapGint_of_range _ (by omega) (by unfold G_MAXINT; omega)]
        omega
      · exact ih1
    | compare val =>
      simp only [plainCall]
      rw [plain_compare_state rc val _ hrc]
      exact ih1

/-- Atomic counter: as long as no retain is made on `G_MAXINT`, the cell stays
between `0` and `G_MAXINT`. -/
theorem atomic_domain (arc : Nat) (s : State) (ops : List Op) (harc : arc ≠ NULL)
    (hroom : ∀ k, k < ops.length → ops[k]? = some Op.inc →
      cellValue arc (finalState (atomicCall arc) (ops.take k) (g_atomic_ref_count_init arc s))
        ≠ G_MAXINT)
    (k : Nat) (hk : k ≤ ops.length) :
    0 ≤ cellValue arc (finalState (atomicCall arc) (ops.take k) (g_atomic_ref_count_init arc s))
      ∧ cellValue arc (finalState (atomicCall arc) (ops.take k) (g_atomic_ref_count_init arc s))
        ≤ G_MAXINT := by
  induction k with
  | zero =>
    simp only [List.take_zero, finalState]
    rw [atomic_init_value arc s harc]
    decide
  | succ k ih =>
    have hlt : k < ops.length := by omega
    have ih1 := ih (by omega)
    obtain ⟨o, ho⟩ : ∃ o, ops[k]? = some o := ⟨ops[k], List.getElem?_eq_getElem hlt⟩
    rw [take_succ_of_getElem? ops k o ho, finalState_snoc]
    cases o with
    | inc =>
      have hne := hroom k hlt ho
      simp only [atomicCall]
      rw [atomic_inc_value arc _ harc]
      split
      · rw [wrapGint_of_range _ (by unfold G_MININT; omega) (by omega)]
        omega
      · exact ih1
    | dec =>
      simp only [atomicCall]
      rw [atomic_dec_value arc _ harc]
      split
      · rw [wrapGint_of_range _ (by unfold G_MININT; omega) (by omega)]
        omega
      · exact ih1
    | compare val =>
      simp only [atomicCall]
      rw [atomic_compare_state arc val _ harc]
      exact ih1

/-- C7 (as amended): for every sequence of calls made after init in which no `inc`
call is made on a cell holding `G_MININT` (plain) or `G_MAXINT` (atomic), the
stored value after each call is in the valid domain or is the terminal `0`:
between `G_MININT` and `0` for the plain counter, between `0` and `G_MAXINT` for
the atomic counter. In particular `inc` on a live value other than that extreme
one yields a live value. -/
theorem valid_domain_invariant (rc arc : Nat) (s : State) (ops : List Op)
    (hrc : rc ≠ NULL) (harc : arc ≠ NULL) :
    ((∀ k, k < ops.length → ops[k]? = some Op.inc →
        cellValue rc (finalState (plainCall rc) (ops.take k) (g_ref_count_init rc s))
          ≠ G_MININT) →
      ∀ k, k ≤ ops.length →
        G_MININT ≤ cellValue rc (finalState (plainCall rc) (ops.take k) (g_ref_count_init rc s))
        ∧ cellValue rc (finalState (plainCall rc) (ops.take k) (g_ref_count_init rc s)) ≤ 0)
    ∧ ((∀ k, k < ops.length → ops[k]? = some Op.inc →
        cellValue arc (finalState (atomicCall arc) (ops.take k) (g_atomic_ref_count_init arc s))
          ≠ G_MAXINT) →
      ∀ k, k ≤ ops.length →
        0 ≤ cellValue arc
            (finalState (atomicCall arc) (ops.take k) (g_atomic_ref_count_init arc s))
        ∧ cellValue arc
            (finalState (atomicCall arc) (ops.take k) (g_atomic_ref_count_init arc s))
          ≤ G_MAXINT)
    ∧ (G_MININT < cellValue rc s → cellValue rc s < 0 →
        G_MININT ≤ cellValue rc (g_ref_count_inc rc s) ∧ cellValue rc (g_ref_count_inc rc s) < 0)
    ∧ (0 < cellValue arc s → cellValue arc s < G_MAXINT →
        0 < cellValue arc (g_atomic_ref_count_inc arc s)
        ∧ cellValue arc (g_atomic_ref_count_inc arc s) ≤ G_MAXINT) := by
  refine ⟨fun h => plain_domain rc s ops hrc h, fun h => atomic_domain arc s ops harc h, ?_, ?_⟩
  · intro h1 h2
    rw [plain_inc_value rc s hrc, if_pos h2,
      wrapGint_of_range _ (by omega) (by unfold G_MAXINT; omega)]
    omega
  · intro h1 h2
    rw [atomic_inc_value arc s harc, if_pos h1,
      wrapGint_of_range _ (by unfold G_MININT; omega) (by omega)]
    omega

/-- Witness of C7 as amended: retain, release twice (the second one is the last
reference), then a retain and a release too many; and one retain on a live cell. -/
theorem valid_domain_invariant_witness :
    (1 : Nat) ≠ NULL ∧ (2 : Nat) ≠ NULL
    ∧ ((∀ k, k < [Op.inc, Op.dec, Op.dec, Op.inc, Op.dec].length →
          [Op.inc, Op.dec, Op.dec, Op.inc, Op.dec][k]? = some Op.inc →
          cellValue 1 (finalState (plainCall 1) ([Op.inc, Op.dec, Op.dec, Op.inc, Op.dec].take k)
            (g_ref_count_init 1 zeroState)) ≠ G_MININT)
      ∧ G_MININT ≤ cellValue 1 (finalState (plainCall 1)
          ([Op.inc, Op.dec, Op.dec, Op.inc, Op.dec].take 5) (g_ref_count_init 1 zeroState))
      ∧ cellValue 1 (finalState (plainCall 1)
          ([Op.inc, Op.dec, Op.dec, Op.inc, Op.dec].take 5) (g_ref_count_init 1 zeroState)) ≤ 0)
    ∧ ((∀ k, k < [Op.inc, Op.dec, Op.dec, Op.inc, Op.dec].length →
          [Op.inc, Op.dec, Op.dec, Op.inc, Op.dec][k]? = some Op.inc →
          cellValue 2 (finalState (atomicCall 2)
            ([Op.inc, Op.dec, Op.dec, Op.inc, Op.dec].take k)
            (g_atomic_ref_count_init 2 zeroState)) ≠ G_MAXINT)
      ∧ 0 ≤ cellValue 2 (finalState (atomicCall 2)
          ([Op.inc, Op.dec, Op.dec, Op.inc, Op.dec].take 5) (g_atomic_ref_count_init 2 zeroState))
      ∧ cellValue 2 (finalState (atomicCall 2)
          ([Op.inc, Op.dec, Op.dec, Op.inc, Op.dec].take 5) (g_atomic_ref_count_init 2 zeroState))
        ≤ G_MAXINT)
    ∧ (G_MININT < cellValue 1 (constState (-4)) ∧ cellValue 1 (constState (-4)) < 0
      ∧ G_MININT ≤ cellValue 1 (g_ref_count_inc 1 (constState (-4)))
      ∧ cellValue 1 (g_ref_count_inc 1 (constState (-4))) < 0)
    ∧ (0 < cellValue 2 (constState 4) ∧ cellValue 2 (constState 4) < G_MAXINT
      ∧ 0 < cellValue 2 (g_atomic_ref_count_inc 2 (constState 4))
      ∧ cellValue 2 (g_atomic_ref_count_inc 2 (constState 4)) ≤ G_MAXINT) :=
  ⟨by decide, by decide,
    ⟨by decide,
      (valid_domain_invariant 1 2 zeroState [Op.inc, Op.dec, Op.dec, Op.inc, Op.dec]
        (by decide) (by decide)).1 (by decide) 5 (by decide)⟩,
    ⟨by decide,
      (valid_domain_invariant 1 2 zeroState [Op.inc, Op.dec, Op.dec, Op.inc, Op.dec]
        (by decide) (by decide)).2.1 (by decide) 5 (by decide)⟩,
    ⟨by decide, by decide,
      (valid_domain_invariant 1 2 (constState (-4)) [] (by decide) (by decide)).2.2.1
        (by decide) (by decide)⟩,
    ⟨by decide, by decide,
      (valid_domain_invariant 1 2 (constState 4) [] (by decide) (by decide)).2.2.2
        (by decide) (by decide)⟩⟩

/-- C7 fails as stated: after init and `2^31` retains the plain cell holds
`G_MAXINT`, which is above `0`; the retain made on the live value `G_MININT` did
not yield a live value. -/
theorem valid_domain_invariant_counterexample :
    cellValue 1 (finalState (plainCall 1) (List.replicate 2147483648 Op.inc)
        (g_ref_count_init 1 zeroState)) = 2147483647
    ∧ ¬ cellValue 1 (finalState (plainCall 1) (List.replicate 2147483648 Op.inc)
        (g_ref_count_init 1 zeroState)) ≤ 0
    ∧ cellValue 1 (constState G_MININT) < 0
    ∧ ¬ cellValue 1 (g_ref_count_inc 1 (constState G_MININT)) < 0 := by
  have hv : cellValue 1 (finalState (plainCall 1) (List.replicate 2147483648 Op.inc)
      (g_ref_count_init 1 zeroState)) = 2147483647 :=
    plain_incs_overflow 1 (by decide) zeroState 2147483648 (by decide)
  refine ⟨hv, ?_, by decide, by decide⟩
  rw [hv]
  decide

/-! ## Compare -/

/-- C8: right after init, `g_ref_count_compare` returns `TRUE` if and only if
`val = -1`, and `g_atomic_ref_count_compare` returns `TRUE` if and only if
`val = 1`. -/
theorem compare_after_init (rc arc : Nat) (val : Int) (s : State)
    (hrc : rc ≠ NULL) (harc : arc ≠ NULL) :
    ((g_ref_count_compare rc val (g_ref_count_init rc s)).2 = true ↔ val = -1)
    ∧ ((g_atomic_ref_count_compare arc val (g_atomic_ref_count_init arc s)).2 = true
        ↔ val = 1) := by
  constructor
  · simp only [g_ref_count_compare, g_ref_count_init, State.load, State.store, hrc, ne_eq,
      not_false_eq_true, if_true, decide_eq_true_eq]
    exact eq_comm
  · simp only [g_atomic_ref_count_compare, g_atomic_ref_count_init, g_atomic_int_get,
      g_atomic_int_set, State.load, State.store, harc, ne_eq, not_false_eq_true, if_true,
      decide_eq_true_eq]
    exact eq_comm

/-- Witness of C8: the sentinel of each variant compared against its own cell. -/
theorem compare_after_init_witness :
    (1 : Nat) ≠ NULL ∧ (2 : Nat) ≠ NULL
    ∧ ((g_ref_count_compare 1 (-1) (g_ref_count_init 1 zeroState)).2 = true ↔ (-1 : Int) = -1)
    ∧ ((g_atomic_ref_count_compare 2 (-1) (g_atomic_ref_count_init 2 zeroState)).2 = true
        ↔ (-1 : Int) = 1) :=
  ⟨by decide, by decide, compare_after_init 1 2 (-1) zeroState (by decide) (by decide)⟩

theorem plain_without_compares (rc : Nat) (hrc : rc ≠ NULL) (ops : List Op) (s : State) :
    decReturns (plainCall rc) ops s = decReturns (plainCall rc) (withoutCompares ops) s
      ∧ finalState (plainCall rc) ops s = finalState (plainCall rc) (withoutCompares ops) s := by
  induction ops generalizing s with
  | nil => exact ⟨rfl, rfl⟩
  | cons o os ih =>
    cases o with
    | inc =>
      have h := ih (g_ref_count_inc rc s)
      simp only [withoutCompares, List.filter, Op.isCompare, Bool.not_false, decReturns,
        finalState, plainCall] at h ⊢
      exact ⟨by rw [h.1], h.2⟩
    | dec =>
      have h := ih (g_ref_count_dec rc s).1
      simp only [withoutCompares, List.filter, Op.isCompare, Bool.not_false, decReturns,
        finalState, plainCall] at h ⊢
      exact ⟨by rw [h.1], h.2⟩
    | compare val =>
      have h := ih s
      simp only [withoutCompares, List.filter, Op.isCompare, Bool.not_true, decReturns,
        finalState, plainCall, decReturn, List.nil_append,
        plain_compare_state rc val s hrc] at h ⊢
      exact h

theorem atomic_without_compares (arc : Nat) (harc : arc ≠ NULL) (ops : List Op) (s : State) :
    decReturns (atomicCall arc) ops s = decReturns (atomicCall arc) (withoutCompares ops) s
      ∧ finalState (atomicCall arc) ops s
        = finalState (atomicCall arc) (withoutCompares ops) s := by
  induction ops generalizing s with
  | nil => exact ⟨rfl, rfl⟩
  | cons o os ih =>
    cases o with
    | inc =>
      have h := ih (g_atomic_ref_count_inc arc s)
      simp only [withoutCompares, List.filter, Op.isCompare, Bool.not_false, decReturns,
        finalState, atomicCall] at h ⊢
      exact ⟨by rw [h.1], h.2⟩
    | dec =>
      have h := ih (g_atomic_ref_count_dec arc s).1
      simp only [withoutCompares, List.filter, Op.isCompare, Bool.not_false, decReturns,
        finalState, atomicCall] at h ⊢
      exact ⟨by rw [h.1], h.2⟩
    | compare val =>
      have h := ih s
      simp only [withoutCompares, List.filter, Op.isCompare, Bool.not_true, decReturns,
        finalState, atomicCall, decReturn, List.nil_append,
        atomic_compare_state arc val s harc] at h ⊢
      exact h

/-- C9: `compare` leaves the state it runs in unchanged, whatever the cell holds
and whatever `val` is; hence a sequence of calls made after init returns the
same `dec` values and ends in the same state as the sequence with all of its
`compare` calls left out. This holds for the plain and for the atomic counter. -/
theorem compare_never_mutates (rc arc : Nat) (val : Int) (s : State) (ops : List Op)
    (hrc : rc ≠ NULL) (harc : arc ≠ NULL) :
    (g_ref_count_compare rc val s).1 = s
    ∧ (g_atomic_ref_count_compare arc val s).1 = s
    ∧ decReturns (plainCall rc) ops (g_ref_count_init rc s)
        = decReturns (plainCall rc) (withoutCompares ops) (g_ref_count_init rc s)
    ∧ finalState (plainCall rc) ops (g_ref_count_init rc s)
        = finalState (plainCall rc) (withoutCompares ops) (g_ref_count_init rc s)
    ∧ decReturns (atomicCall arc) ops (g_atomic_ref_count_init arc s)
        = decReturns (atomicCall arc) (withoutCompares ops) (g_atomic_ref_count_init arc s)
    ∧ finalState (atomicCall arc) ops (g_atomic_ref_count_init arc s)
        = finalState (atomicCall arc) (withoutCompares ops) (g_atomic_ref_count_init arc s) :=
  ⟨plain_compare_state rc val s hrc, atomic_compare_state arc val s harc,
    (plain_without_compares rc hrc ops _).1, (plain_without_compares rc hrc ops _).2,
    (atomic_without_compares arc harc ops _).1, (atomic_without_compares arc harc ops _).2⟩

/-- Witness of C9: `compare` calls put before, between and after a retain and two
releases. -/
theorem compare_never_mutates_witness :
    (1 : Nat) ≠ NULL ∧ (2 : Nat) ≠ NULL
    ∧ withoutCompares [Op.compare (-1), Op.inc, Op.compare 7, Op.dec, Op.dec, Op.compare 0]
        = [Op.inc, Op.dec, Op.dec]
    ∧ (g_ref_count_compare 1 5 zeroState).1 = zeroState
    ∧ (g_atomic_ref_count_compare 2 5 zeroState).1 = zeroState
    ∧ decReturns (plainCall 1)
          [Op.compare (-1), Op.inc, Op.compare 7, Op.dec, Op.dec, Op.compare 0]
          (g_ref_count_init 1 zeroState)
        = decReturns (plainCall 1)
          (withoutCompares [Op.compare (-1), Op.inc, Op.compare 7, Op.dec, Op.dec, Op.compare 0])
          (g_ref_count_init 1 zeroState)
    ∧ finalState (plainCall 1)
          [Op.compare (-1), Op.inc, Op.compare 7, Op.dec, Op.dec, Op.compare 0]
          (g_ref_count_init 1 zeroState)
        = finalState (plainCall 1)
          (withoutCompares [Op.compare (-1), Op.inc, Op.compare 7, Op.dec, Op.dec, Op.compare 0])
          (g_ref_count_init 1 zeroState)
    ∧ decReturns (atomicCall 2)
          [Op.compare (-1), Op.inc, Op.compare 7, Op.dec, Op.dec, Op.compare 0]
          (g_atomic_ref_count_init 2 zeroState)
        = decReturns (atomicCall 2)
          (withoutCompares [Op.compare (-1), Op.inc, Op.compare 7, Op.dec, Op.dec, Op.compare 0])
          (g_atomic_ref_count_init 2 zeroState)
    ∧ finalState (atomicCall 2)
          [Op.compare (-1), Op.inc, Op.compare 7, Op.dec, Op.dec, Op.compare 0]
          (g_atomic_ref_count_init 2 zeroState)
        = finalState (atomicCall 2)
          (withoutCompares [Op.compare (-1), Op.inc, Op.compare 7, Op.dec, Op.dec, Op.compare 0])
          (g_atomic_ref_count_init 2 zeroState) :=
  ⟨by decide, by decide, by decide,
    compare_never_mutates 1 2 5 zeroState
      [Op.compare (-1), Op.inc, Op.compare 7, Op.dec, Op.dec, Op.compare 0]
      (by decide) (by decide)⟩

/-! ## Reporting of violations -/

/-- C10: for all eight operations, a call with a null address reports exactly one
violation, leaves memory untouched and returns the safe default (`FALSE` for
`dec` and `compare`); an `inc` or `dec` call on a cell whose value is not live
reports exactly one violation; and a call whose preconditions hold (a non-null
address, and for `inc` and `dec` a live value) reports none. -/
theorem violations_reported_once (p : Nat) (val : Int) (s : State) :
    ((g_ref_count_init NULL s).criticals = s.criticals + 1
      ∧ (g_ref_count_init NULL s).mem = s.mem
      ∧ (g_ref_count_inc NULL s).criticals = s.criticals + 1
      ∧ (g_ref_count_inc NULL s).mem = s.mem
      ∧ (g_ref_count_dec NULL s).1.criticals = s.criticals + 1
      ∧ (g_ref_count_dec NULL s).1.mem = s.mem
      ∧ (g_ref_count_dec NULL s).2 = false
      ∧ (g_ref_count_compare NULL val s).1.criticals = s.criticals + 1
      ∧ (g_ref_count_compare NULL val s).1.mem = s.mem
      ∧ (g_ref_count_compare NULL val s).2 = false
      ∧ (g_atomic_ref_count_init NULL s).criticals = s.criticals + 1
      ∧ (g_atomic_ref_count_init NULL s).mem = s.mem
      ∧ (g_atomic_ref_count_inc NULL s).criticals = s.criticals + 1
      ∧ (g_atomic_ref_count_inc NULL s).mem = s.mem
      ∧ (g_atomic_ref_count_dec NULL s).1.criticals = s.criticals + 1
      ∧ (g_atomic_ref_count_dec NULL s).1.mem = s.mem
      ∧ (g_atomic_ref_count_dec NULL s).2 = false
      ∧ (g_atomic_ref_count_compare NULL val s).1.criticals = s.criticals + 1
      ∧ (g_atomic_ref_count_compare NULL val s).1.mem = s.mem
      ∧ (g_atomic_ref_count_compare NULL val s).2 = false)
    ∧ (p ≠ NULL → ¬ cellValue p s < 0 →
        (g_ref_count_inc p s).criticals = s.criticals + 1
        ∧ (g_ref_count_dec p s).1.criticals = s.criticals + 1)
    ∧ (p ≠ NULL → ¬ 0 < cellValue p s →
        (g_atomic_ref_count_inc p s).criticals = s.criticals + 1
        ∧ (g_atomic_ref_count_dec p s).1.criticals = s.criticals + 1)
    ∧ (p ≠ NULL →
        (g_ref_count_init p s).criticals = s.criticals
        ∧ (g_ref_count_compare p val s).1.criticals = s.criticals
        ∧ (g_atomic_ref_count_init p s).criticals = s.criticals
        ∧ (g_atomic_ref_count_compare p val s).1.criticals = s.criticals)
    ∧ (p ≠ NULL → cellValue p s < 0 →
        (g_ref_count_inc p s).criticals = s.criticals
        ∧ (g_ref_count_dec p s).1.criticals = s.criticals)
    ∧ (p ≠ NULL → 0 < cellValue p s →
        (g_atomic_ref_count_inc p s).criticals = s.criticals
        ∧ (g_atomic_ref_count_dec p s).1.criticals = s.criticals) := by
  refine ⟨?_, ?_, ?_, ?_, ?_, ?_⟩
  · simp [g_ref_count_init, g_ref_count_inc, g_ref_count_dec, g_ref_count_compare,
      g_atomic_ref_count_init, g_atomic_ref_count_inc, g_atomic_ref_count_dec,
      g_atomic_ref_count_compare, g_return_if_fail_warning]
  · intro hp hv
    unfold cellValue at hv
    simp [g_ref_count_inc, g_ref_count_dec, g_return_if_fail_warning, State.load, hp, hv]
  · intro hp hv
    unfold cellValue at hv
    simp [g_atomic_ref_count_inc, g_atomic_ref_count_dec, g_atomic_int_get,
      g_return_if_fail_warning, State.load, hp, hv]
  · intro hp
    simp [g_ref_count_init, g_ref_count_compare, g_atomic_ref_count_init,
      g_atomic_ref_count_compare, g_atomic_int_set, State.store, hp]
  · intro hp hv
    unfold cellValue at hv
    refine ⟨?_, ?_⟩
    · simp [g_ref_count_inc, State.load, State.store, hp, hv]
    · by_cases h0 : wrapGint (s.mem p + 1) = 0
      · simp [g_ref_count_dec, State.load, State.store, hp, hv, h0]
      · simp [g_ref_count_dec, State.load, State.store, hp, hv, h0]
  · intro hp hv
    unfold cellValue at hv
    simp [g_atomic_ref_count_inc, g_atomic_ref_count_dec, g_atomic_int_get, g_atomic_int_inc,
      g_atomic_int_dec_and_test, State.load, State.store, hp, hv]

/-- Witness of C10: the cell at address `1`, holding `0` (not live for either
variant), `-2` (live for the plain counter) and `2` (live for the atomic one). -/
theorem violations_reported_once_witness :
    ((1 : Nat) ≠ NULL ∧ ¬ cellValue 1 (constState 0) < 0
      ∧ (g_ref_count_inc 1 (constState 0)).criticals = (constState 0).criticals + 1
      ∧ (g_ref_count_dec 1 (constState 0)).1.criticals = (constState 0).criticals + 1)
    ∧ (¬ 0 < cellValue 1 (constState 0)
      ∧ (g_atomic_ref_count_inc 1 (constState 0)).criticals = (constState 0).criticals + 1
      ∧ (g_atomic_ref_count_dec 1 (constState 0)).1.criticals = (constState 0).criticals + 1)
    ∧ ((g_ref_count_init 1 (constState 0)).criticals = (constState 0).criticals
      ∧ (g_ref_count_compare 1 3 (constState 0)).1.criticals = (constState 0).criticals
      ∧ (g_atomic_ref_count_init 1 (constState 0)).criticals = (constState 0).criticals
      ∧ (g_atomic_ref_count_compare 1 3 (constState 0)).1.criticals
          = (constState 0).criticals)
    ∧ (cellValue 1 (constState (-2)) < 0
      ∧ (g_ref_count_inc 1 (constState (-2))).criticals = (constState (-2)).criticals
      ∧ (g_ref_count_dec 1 (constState (-2))).1.criticals = (constState (-2)).criticals)
    ∧ (0 < cellValue 1 (constState 2)
      ∧ (g_atomic_ref_count_inc 1 (constState 2)).criticals = (constState 2).criticals
      ∧ (g_atomic_ref_count_dec 1 (constState 2)).1.criticals = (constState 2).criticals) :=
  ⟨⟨by decide, by decide,
      (violations_reported_once 1 3 (constState 0)).2.1 (by decide) (by decide)⟩,
    ⟨by decide, (violations_reported_once 1 3 (constState 0)).2.2.1 (by decide) (by decide)⟩,
    (violations_reported_once 1 3 (constState 0)).2.2.2.1 (by decide),
    ⟨by decide,
      (violations_reported_once 1 3 (constState (-2))).2.2.2.2.1 (by decide) (by decide)⟩,
    ⟨by decide,
      (violations_reported_once 1 3 (constState 2)).2.2.2.2.2 (by decide) (by decide)⟩⟩

/-! ## The sign as a validity tag -/

/-- C12 (as amended): on an existing plain cell holding a non-negative value,
`g_ref_count_inc` and `g_ref_count_dec` detect it: each reports one precondition
failure, leaves memory alone and returns its safe default (`FALSE` for `dec`).
`g_ref_count_compare` makes no check on the stored value: it reports nothing and
returns whether the stored value equals `val`. -/
theorem sign_check_in_inc_and_dec (rc : Nat) (val : Int) (s : State) (hrc : rc ≠ NULL)
    (hv : 0 ≤ cellValue rc s) :
    ((g_ref_count_inc rc s).criticals = s.criticals + 1
      ∧ (g_ref_count_inc rc s).mem = s.mem)
    ∧ ((g_ref_count_dec rc s).1.criticals = s.criticals + 1
      ∧ (g_ref_count_dec rc s).1.mem = s.mem
      ∧ (g_ref_count_dec rc s).2 = false)
    ∧ ((g_ref_count_compare rc val s).1.criticals = s.criticals
      ∧ (g_ref_count_compare rc val s).1.mem = s.mem
      ∧ ((g_ref_count_compare rc val s).2 = true ↔ cellValue rc s = val)) := by
  have hnl : ¬ s.mem rc < 0 := by unfold cellValue at hv; omega
  refine ⟨?_, ?_, ?_⟩
  · simp [g_ref_count_inc, g_return_if_fail_warning, State.load, hrc, hnl]
  · simp [g_ref_count_dec, g_return_if_fail_warning, State.load, hrc, hnl]
  · simp [g_ref_count_compare, State.load, cellValue, hrc]

/-- Witness of C12 as amended: a plain cell holding `5`, compared with `5`. -/
theorem sign_check_in_inc_and_dec_witness :
    (1 : Nat) ≠ NULL ∧ 0 ≤ cellValue 1 (constState 5)
    ∧ ((g_ref_count_inc 1 (constState 5)).criticals = (constState 5).criticals + 1
      ∧ (g_ref_count_inc 1 (constState 5)).mem = (constState 5).mem)
    ∧ ((g_ref_count_dec 1 (constState 5)).1.criticals = (constState 5).criticals + 1
      ∧ (g_ref_count_dec 1 (constState 5)).1.mem = (constState 5).mem
      ∧ (g_ref_count_dec 1 (constState 5)).2 = false)
    ∧ ((g_ref_count_compare 1 5 (constState 5)).1.criticals = (constState 5).criticals
      ∧ (g_ref_count_compare 1 5 (constState 5)).1.mem = (constState 5).mem
      ∧ ((g_ref_count_compare 1 5 (constState 5)).2 = true ↔ cellValue 1 (constState 5) = 5)) :=
  ⟨by decide, by decide,
    sign_check_in_inc_and_dec 1 5 (constState 5) (by decide) (by decide)⟩

/-- C12 fails as stated: `g_ref_count_compare` on a cell holding the non-negative
value `5`, asked about `5`, reports no failure and returns `TRUE`, which is not
its safe default. -/
theorem sign_check_in_inc_and_dec_counterexample :
    0 ≤ cellValue 1 (constState 5)
    ∧ (g_ref_count_compare 1 5 (constState 5)).1.criticals = (constState 5).criticals
    ∧ (g_ref_count_compare 1 5 (constState 5)).2 = true := by
  decide

/-! ## Retain, then release -/

/-- C15 (as amended): on a live cell whose value `v` is not the extreme one
(`G_MININT < v < 0` for the plain counter, `0 < v < G_MAXINT` for the atomic
counter), `inc` followed by `dec` leaves the cell holding `v` again, and the
`dec` call returns `FALSE`. -/
theorem inc_then_dec_identity (rc arc : Nat) (s : State) (hrc : rc ≠ NULL) (harc : arc ≠ NULL) :
    (G_MININT < cellValue rc s → cellValue rc s < 0 →
        cellValue rc (g_ref_count_dec rc (g_ref_count_inc rc s)).1 = cellValue rc s
        ∧ (g_ref_count_dec rc (g_ref_count_inc rc s)).2 = false)
    ∧ (0 < cellValue arc s → cellValue arc s < G_MAXINT →
        cellValue arc (g_atomic_ref_count_dec arc (g_atomic_ref_count_inc arc s)).1
          = cellValue arc s
        ∧ (g_atomic_ref_count_dec arc (g_atomic_ref_count_inc arc s)).2 = false) := by
  constructor
  · intro h1 h2
    have hi : cellValue rc (g_ref_count_inc rc s) = cellValue rc s - 1 := by
      rw [plain_inc_value rc s hrc, if_pos h2,
        wrapGint_of_range _ (by omega) (by unfold G_MAXINT; omega)]
    have hw : wrapGint (cellValue rc s - 1 + 1) = cellValue rc s := by
      rw [wrapGint_of_range _ (by omega) (by unfold G_MAXINT; omega)]
      omega
    rw [plain_dec_value rc _ hrc, plain_dec_ret rc _ hrc, hi, if_pos (by omega), hw]
    refine ⟨rfl, ?_⟩
    simp only [decide_eq_false_iff_not, not_and]
    intro _
    omega
  · intro h1 h2
    have hi : cellValue arc (g_atomic_ref_count_inc arc s) = cellValue arc s + 1 := by
      rw [atomic_inc_value arc s harc, if_pos h1,
        wrapGint_of_range _ (by unfold G_MININT; omega) (by omega)]
    have hw : wrapGint (cellValue arc s + 1 - 1) = cellValue arc s := by
      rw [wrapGint_of_range _ (by unfold G_MININT; omega) (by omega)]
      omega
    rw [atomic_dec_value arc _ harc, atomic_dec_ret arc _ harc, hi, if_pos (by omega), hw]
    refine ⟨rfl, ?_⟩
    simp only [decide_eq_false_iff_not, not_and]
    intro _
    omega

/-- Witness of C15 as amended: a plain cell holding `-3`, an atomic cell holding
`3`. -/
theorem inc_then_dec_identity_witness :
    (1 : Nat) ≠ NULL ∧ (2 : Nat) ≠ NULL
    ∧ (G_MININT < cellValue 1 (constState (-3)) ∧ cellValue 1 (constState (-3)) < 0
      ∧ cellValue 1 (g_ref_count_dec 1 (g_ref_count_inc 1 (constState (-3)))).1
          = cellValue 1 (constState (-3))
      ∧ (g_ref_count_dec 1 (g_ref_count_inc 1 (constState (-3)))).2 = false)
    ∧ (0 < cellValue 2 (constState 3) ∧ cellValue 2 (constState 3) < G_MAXINT
      ∧ cellValue 2 (g_atomic_ref_count_dec 2 (g_atomic_ref_count_inc 2 (constState 3))).1
          = cellValue 2 (constState 3)
      ∧ (g_atomic_ref_count_dec 2 (g_atomic_ref_count_inc 2 (constState 3))).2 = false) :=
  ⟨by decide, by decide,
    ⟨by decide, by decide,
      (inc_then_dec_identity 1 2 (constState (-3)) (by decide) (by decide)).1
        (by decide) (by decide)⟩,
    ⟨by decide, by decide,
      (inc_then_dec_identity 1 2 (constState 3) (by decide) (by decide)).2
        (by decide) (by decide)⟩⟩

/-- C15 fails as stated: on the live plain value `G_MININT` the retain wraps the
cell to `G_MAXINT` and the release then fails its check, so the cell ends up
holding `G_MAXINT`; likewise the live atomic value `G_MAXINT` ends up as
`G_MININT`. -/
theorem inc_then_dec_identity_counterexample :
    (cellValue 1 (constState G_MININT) < 0
      ∧ cellValue 1 (g_ref_count_dec 1 (g_ref_count_inc 1 (constState G_MININT))).1 = G_MAXINT
      ∧ cellValue 1 (g_ref_count_dec 1 (g_ref_count_inc 1 (constState G_MININT))).1
          ≠ cellValue 1 (constState G_MININT))
    ∧ (0 < cellValue 2 (constState G_MAXINT)
      ∧ cellValue 2 (g_atomic_ref_count_dec 2
          (g_atomic_ref_count_inc 2 (constState G_MAXINT))).1 = G_MININT
      ∧ cellValue 2 (g_atomic_ref_count_dec 2
          (g_atomic_ref_count_inc 2 (constState G_MAXINT))).1
          ≠ cellValue 2 (constState G_MAXINT)) := by
  decide

/-! ## The two variants, side by side -/

/-- Plain and atomic counter run in lockstep: as long as no retain is made while
the atomic cell holds `G_MAXINT`, the plain cell holds the negation of the atomic
cell. -/
theorem lockstep_value (rc arc : Nat) (s : State) (ops : List Op)
    (hrc : rc ≠ NULL) (harc : arc ≠ NULL)
    (hroom : ∀ k, k < ops.length → ops[k]? = some Op.inc →
      cellValue arc (finalState (atomicCall arc) (ops.take k) (g_atomic_ref_count_init arc s))
        ≠ G_MAXINT)
    (k : Nat) (hk : k ≤ ops.length) :
    cellValue rc (finalState (plainCall rc) (ops.take k) (g_ref_count_init rc s))
      = - cellValue arc
          (finalState (atomicCall arc) (ops.take k) (g_atomic_ref_count_init arc s)) := by
  induction k with
  | zero =>
    simp only [List.take_zero, finalState]
    rw [plain_init_value rc s hrc, atomic_init_value arc s harc]
  | succ k ih =>
    have hlt : k < ops.length := by omega
    have ih1 := ih (by omega)
    have hdom := atomic_domain arc s ops harc hroom k (by omega)
    obtain ⟨o, ho⟩ : ∃ o, ops[k]? = some o := ⟨ops[k], List.getElem?_eq_getElem hlt⟩
    rw [take_succ_of_getElem? ops k o ho, finalState_snoc, finalState_snoc]
    cases o with
    | inc =>
      have hne := hroom k hlt ho
      simp only [plainCall, atomicCall]
      rw [plain_inc_value rc _ hrc, atomic_inc_value arc _ harc, ih1]
      by_cases hpos : 0 < cellValue arc
          (finalState (atomicCall arc) (ops.take k) (g_atomic_ref_count_init arc s))
      · rw [if_pos (by omega), if_pos hpos,
          wrapGint_of_range _ (by unfold G_MININT; unfold G_MAXINT at hdom; omega)
            (by unfold G_MAXINT; omega),
          wrapGint_of_range _ (by unfold G_MININT; omega) (by omega)]
        omega
      · rw [if_neg (by omega), if_neg hpos]
    | dec =>
      simp only [plainCall, atomicCall]
      rw [plain_dec_value rc _ hrc, atomic_dec_value arc _ harc, ih1]
      by_cases hpos : 0 < cellValue arc
          (finalState (atomicCall arc) (ops.take k) (g_atomic_ref_count_init arc s))
      · rw [if_pos (by omega), if_pos hpos,
          wrapGint_of_range _ (by unfold G_MININT; unfold G_MAXINT at hdom; omega)
            (by unfold G_MAXINT; omega),
          wrapGint_of_range _ (by unfold G_MININT; omega) (by omega)]
        omega
      · rw [if_neg (by omega), if_neg hpos]
    | compare val =>
      simp only [plainCall, atomicCall]
      rw [plain_compare_state rc val _ hrc, atomic_compare_state arc val _ harc]
      exact ih1

/-- C13 (as amended): for every sequence of calls applied after init to a plain
cell and, in lockstep, to an atomic cell, in which no `inc` call is made while
the atomic cell holds `G_MAXINT`, the plain value equals the negation of the
atomic value after each call, and each `dec` call returns the same boolean in
both variants. -/
theorem variants_simulate_by_negation (rc arc : Nat) (s : State) (ops : List Op)
    (hrc : rc ≠ NULL) (harc : arc ≠ NULL)
    (hroom : ∀ k, k < ops.length → ops[k]? = some Op.inc →
      cellValue arc (finalState (atomicCall arc) (ops.take k) (g_atomic_ref_count_init arc s))
        ≠ G_MAXINT) :
    (∀ k, k ≤ ops.length →
      cellValue rc (finalState (plainCall rc) (ops.take k) (g_ref_count_init rc s))
        = - cellValue arc
            (finalState (atomicCall arc) (ops.take k) (g_atomic_ref_count_init arc s)))
    ∧ (∀ k, ops[k]? = some Op.dec →
      (g_ref_count_dec rc (finalState (plainCall rc) (ops.take k) (g_ref_count_init rc s))).2
        = (g_atomic_ref_count_dec arc
            (finalState (atomicCall arc) (ops.take k) (g_atomic_ref_count_init arc s))).2) := by
  refine ⟨lockstep_value rc arc s ops hrc harc hroom, ?_⟩
  intro k hdec
  have hlt : k < ops.length := by
    rcases Nat.lt_or_ge k ops.length with h | h
    · exact h
    · rw [List.getElem?_eq_none h] at hdec; cases hdec
  have hv := lockstep_value rc arc s ops hrc harc hroom k (by omega)
  have hdom := atomic_domain arc s ops harc hroom k (by omega)
  rw [plain_dec_ret rc _ hrc, atomic_dec_ret arc _ harc, hv]
  by_cases hpos : 0 < cellValue arc
      (finalState (atomicCall arc) (ops.take k) (g_atomic_ref_count_init arc s))
  · rw [wrapGint_of_range _ (by unfold G_MININT; unfold G_MAXINT at hdom; omega)
        (by unfold G_MAXINT; omega),
      wrapGint_of_range _ (by unfold G_MININT; omega) (by omega)]
    apply decide_eq_decide.mpr
    constructor
    · intro h; exact ⟨hpos, by omega⟩
    · intro h; exact ⟨by omega, by omega⟩
  · apply decide_eq_decide.mpr
    constructor
    · intro h; omega
    · intro h; exact absurd h.1 hpos

/-- Witness of C13 as amended: retain, release twice, then a release and a retain
too many; the values after the five calls and the return of the second release. -/
theorem variants_simulate_by_negation_witness :
    (1 : Nat) ≠ NULL ∧ (2 : Nat) ≠ NULL
    ∧ (∀ k, k < [Op.inc, Op.dec, Op.dec, Op.dec, Op.inc].length →
        [Op.inc, Op.dec, Op.dec, Op.dec, Op.inc][k]? = some Op.inc →
        cellValue 2 (finalState (atomicCall 2) ([Op.inc, Op.dec, Op.dec, Op.dec, Op.inc].take k)
          (g_atomic_ref_count_init 2 zeroState)) ≠ G_MAXINT)
    ∧ cellValue 1 (finalState (plainCall 1) ([Op.inc, Op.dec, Op.dec, Op.dec, Op.inc].take 5)
          (g_ref_count_init 1 zeroState))
        = - cellValue 2 (finalState (atomicCall 2)
            ([Op.inc, Op.dec, Op.dec, Op.dec, Op.inc].take 5)
            (g_atomic_ref_count_init 2 zeroState))
    ∧ (g_ref_count_dec 1 (finalState (plainCall 1)
          ([Op.inc, Op.dec, Op.dec, Op.dec, Op.inc].take 2) (g_ref_count_init 1 zeroState))).2
        = (g_atomic_ref_count_dec 2 (finalState (atomicCall 2)
            ([Op.inc, Op.dec, Op.dec, Op.dec, Op.inc].take 2)
            (g_atomic_ref_count_init 2 zeroState))).2 :=
  ⟨by decide, by decide, by decide,
    (variants_simulate_by_negation 1 2 zeroState [Op.inc, Op.dec, Op.dec, Op.dec, Op.inc]
      (by decide) (by decide) (by decide)).1 5 (by decide),
    (variants_simulate_by_negation 1 2 zeroState [Op.inc, Op.dec, Op.dec, Op.dec, Op.inc]
      (by decide) (by decide) (by decide)).2 2 rfl⟩

/-- C13 fails as stated: after `2^31 - 1` retains the plain cell holds `G_MININT`,
and so does the atomic cell, whose last retain was made on `G_MAXINT` and wrapped
around; the plain value is not the negation of the atomic one. -/
theorem variants_simulate_by_negation_counterexample :
    cellValue 1 (finalState (plainCall 1) (List.replicate 2147483647 Op.inc)
        (g_ref_count_init 1 zeroState)) = -2147483648
    ∧ cellValue 2 (finalState (atomicCall 2) (List.replicate 2147483647 Op.inc)
        (g_atomic_ref_count_init 2 zeroState)) = -2147483648
    ∧ cellValue 1 (finalState (plainCall 1) (List.replicate 2147483647 Op.inc)
        (g_ref_count_init 1 zeroState))
      ≠ - cellValue 2 (finalState (atomicCall 2) (List.replicate 2147483647 Op.inc)
        (g_atomic_ref_count_init 2 zeroState)) := by
  have h0 := plain_init_value 1 zeroState (by decide)
  have hp := plain_incs_value 1 (by decide) 2147483647 (g_ref_count_init 1 zeroState)
    (by rw [h0]; decide) (by rw [h0]; decide)
  rw [h0] at hp
  have hp1 : cellValue 1 (finalState (plainCall 1) (List.replicate 2147483647 Op.inc)
      (g_ref_count_init 1 zeroState)) = -2147483648 := by
    rw [hp]; decide
  have ha : cellValue 2 (finalState (atomicCall 2) (List.replicate 2147483647 Op.inc)
      (g_atomic_ref_count_init 2 zeroState)) = -2147483648 :=
    atomic_incs_overflow 2 (by decide) zeroState 2147483647 (by decide)
  refine ⟨hp1, ha, ?_⟩
  rw [hp1, ha]
  decide

/-! ## The last-reference signal fires at most once -/

/-- Plain counter: on a cell that is not live, no sequence of calls changes memory
or makes a release return `TRUE`. -/
theorem plain_dead_stays (rc : Nat) (hrc : rc ≠ NULL) (ops : List Op) (s : State)
    (hdead : 0 ≤ cellValue rc s) :
    cellValue rc (finalState (plainCall rc) ops s) = cellValue rc s
      ∧ (decReturns (plainCall rc) ops s).count true = 0 := by
  induction ops generalizing s with
  | nil => simp [finalState, decReturns]
  | cons o os ih =>
    have hnl : ¬ cellValue rc s < 0 := by omega
    cases o with
    | inc =>
      have hv : cellValue rc (g_ref_count_inc rc s) = cellValue rc s := by
        rw [plain_inc_value rc s hrc, if_neg hnl]
      have h := ih (g_ref_count_inc rc s) (by rw [hv]; exact hdead)
      simp only [finalState, decReturns, plainCall, decReturn, List.nil_append]
      exact ⟨by rw [h.1, hv], h.2⟩
    | dec =>
      have hv : cellValue rc (g_ref_count_dec rc s).1 = cellValue rc s := by
        rw [plain_dec_value rc s hrc, if_neg hnl]
      have hr : (g_ref_count_dec rc s).2 = false := by
        rw [plain_dec_ret rc s hrc]
        simp [hnl]
      have h := ih (g_ref_count_dec rc s).1 (by rw [hv]; exact hdead)
      simp only [finalState, decReturns, plainCall, decReturn, hr, List.singleton_append]
      refine ⟨by rw [h.1, hv], ?_⟩
      rw [List.count_cons, h.2]
      decide
    | compare val =>
      have h := ih s hdead
      simp only [finalState, decReturns, plainCall, decReturn, List.nil_append,
        plain_compare_state rc val s hrc]
      exact h

/-- Atomic counter: on a cell that is not live, no sequence of calls changes
memory or makes a release return `TRUE`. -/
theorem atomic_dead_stays (arc : Nat) (harc : arc ≠ NULL) (ops : List Op) (s : State)
    (hdead : cellValue arc s ≤ 0) :
    cellValue arc (finalState (atomicCall arc) ops s) = cellValue arc s
      ∧ (decReturns (atomicCall arc) ops s).count true = 0 := by
  induction ops generalizing s with
  | nil => simp [finalState, decReturns]
  | cons o os ih =>
    have hnl : ¬ 0 < cellValue arc s := by omega
    cases o with
    | inc =>
      have hv : cellValue arc (g_atomic_ref_count_inc arc s) = cellValue arc s := by
        rw [atomic_inc_value arc s harc, if_neg hnl]
      have h := ih (g_atomic_ref_count_inc arc s) (by rw [hv]; exact hdead)
      simp only [finalState, decReturns, atomicCall, decReturn, List.nil_append]
      exact ⟨by rw [h.1, hv], h.2⟩
    | dec =>
      have hv : cellValue arc (g_atomic_ref_count_dec arc s).1 = cellValue arc s := by
        rw [atomic_dec_value arc s harc, if_neg hnl]
      have hr : (g_atomic_ref_count_dec arc s).2 = false := by
        rw [atomic_dec_ret arc s harc]
        simp [hnl]
      have h := ih (g_atomic_ref_count_dec arc s).1 (by rw [hv]; exact hdead)
      simp only [finalState, decReturns, atomicCall, decReturn, hr, List.singleton_append]
      refine ⟨by rw [h.1, hv], ?_⟩
      rw [List.count_cons, h.2]
      decide
    | compare val =>
      have h := ih s hdead
      simp only [finalState, decReturns, atomicCall, decReturn, List.nil_append,
        atomic_compare_state arc val s harc]
      exact h

/-- Plain counter: from any state, at most one release of a sequence returns
`TRUE`. -/
theorem plain_true_at_most_once (rc : Nat) (hrc : rc ≠ NULL) (ops : List Op) (s : State) :
    (decReturns (plainCall rc) ops s).count true ≤ 1 := by
  induction ops generalizing s with
  | nil => simp [decReturns]
  | cons o os ih =>
    cases o with
    | inc =>
      simp only [decReturns, plainCall, decReturn, List.nil_append]
      exact ih _
    | dec =>
      simp only [decReturns, plainCall, decReturn, List.singleton_append]
      rw [List.count_cons]
      by_cases hr : (g_ref_count_dec rc s).2 = true
      · have hz := plain_dec_true_zero rc s hrc hr
        have h := (plain_dead_stays rc hrc os (g_ref_count_dec rc s).1 (le_of_eq hz.symm)).2
        rw [h, hr]
        decide
      · have hf : (g_ref_count_dec rc s).2 = false := by simpa using hr
        have h := ih (g_ref_count_dec rc s).1
        rw [hf]
        simpa using h
    | compare val =>
      simp only [decReturns, plainCall, decReturn, List.nil_append]
      exact ih _

/-- Atomic counter: from any state, at most one release of a sequence returns
`TRUE`. -/
theorem atomic_true_at_most_once (arc : Nat) (harc : arc ≠ NULL) (ops : List Op) (s : State) :
    (decReturns (atomicCall arc) ops s).count true ≤ 1 := by
  induction ops generalizing s with
  | nil => simp [decReturns]
  | cons o os ih =>
    cases o with
    | inc =>
      simp only [decReturns, atomicCall, decReturn, List.nil_append]
      exact ih _
    | dec =>
      simp only [decReturns, atomicCall, decReturn, List.singleton_append]
      rw [List.count_cons]
      by_cases hr : (g_atomic_ref_count_dec arc s).2 = true
      · have hz := atomic_dec_true_zero arc s harc hr
        have h := (atomic_dead_stays arc harc os (g_atomic_ref_count_dec arc s).1
          (le_of_eq hz)).2
        rw [h, hr]
        decide
      · have hf : (g_atomic_ref_count_dec arc s).2 = false := by simpa using hr
        have h := ih (g_atomic_ref_count_dec arc s).1
        rw [hf]
        simpa using h
    | compare val =>
      simp only [decReturns, atomicCall, decReturn, List.nil_append]
      exact ih _

theorem take_later (ops : List Op) (k j : Nat) (hkj : k < j) :
    ops.take j = ops.take (k + 1) ++ (ops.drop (k + 1)).take (j - (k + 1)) := by
  have h : j = (k + 1) + (j - (k + 1)) := by omega
  conv => lhs; rw [h]
  exact List.take_add ops (k + 1) (j - (k + 1))

/-- C14: for every sequence of `inc`, `dec` and `compare` calls made after a single
init, in any order and of any length, at most one `dec` call returns `TRUE`, and
once a `dec` call has returned `TRUE` the stored value is `0` after every later
call; this holds for the plain counter and for the atomic counter used from one
thread. -/
theorem last_reference_signal_once (rc arc : Nat) (s : State) (ops : List Op)
    (hrc : rc ≠ NULL) (harc : arc ≠ NULL) :
    ((decReturns (plainCall rc) ops (g_ref_count_init rc s)).count true ≤ 1
      ∧ (∀ k j, ops[k]? = some Op.dec →
          (g_ref_count_dec rc
            (finalState (plainCall rc) (ops.take k) (g_ref_count_init rc s))).2 = true →
          k < j →
          cellValue rc (finalState (plainCall rc) (ops.take j) (g_ref_count_init rc s)) = 0))
    ∧ ((decReturns (atomicCall arc) ops (g_atomic_ref_count_init arc s)).count true ≤ 1
      ∧ (∀ k j, ops[k]? = some Op.dec →
          (g_atomic_ref_count_dec arc
            (finalState (atomicCall arc) (ops.take k) (g_atomic_ref_count_init arc s))).2
            = true →
          k < j →
          cellValue arc
            (finalState (atomicCall arc) (ops.take j) (g_atomic_ref_count_init arc s)) = 0)) := by
  refine ⟨⟨plain_true_at_most_once rc hrc ops _, ?_⟩,
    ⟨atomic_true_at_most_once arc harc ops _, ?_⟩⟩
  · intro k j hdec htrue hkj
    have hz := plain_dec_true_zero rc _ hrc htrue
    rw [take_later ops k j hkj, finalState_append, take_succ_of_getElem? ops k Op.dec hdec,
      finalState_snoc]
    simp only [plainCall]
    rw [(plain_dead_stays rc hrc _ _ (le_of_eq hz.symm)).1]
    exact hz
  · intro k j hdec htrue hkj
    have hz := atomic_dec_true_zero arc _ harc htrue
    rw [take_later ops k j hkj, finalState_append, take_succ_of_getElem? ops k Op.dec hdec,
      finalState_snoc]
    simp only [atomicCall]
    rw [(atomic_dead_stays arc harc _ _ (le_of_eq hz)).1]
    exact hz

/-- Witness of C14: a retain, two releases (the second one is the last reference),
then misuse: a release, a retain, a compare and another release. -/
theorem last_reference_signal_once_witness :
    (1 : Nat) ≠ NULL ∧ (2 : Nat) ≠ NULL
    ∧ ((decReturns (plainCall 1)
          [Op.inc, Op.dec, Op.dec, Op.dec, Op.inc, Op.compare 0, Op.dec]
          (g_ref_count_init 1 zeroState)).count true ≤ 1
      ∧ [Op.inc, Op.dec, Op.dec, Op.dec, Op.inc, Op.compare 0, Op.dec][2]? = some Op.dec
      ∧ (g_ref_count_dec 1 (finalState (plainCall 1)
          ([Op.inc, Op.dec, Op.dec, Op.dec, Op.inc, Op.compare 0, Op.dec].take 2)
          (g_ref_count_init 1 zeroState))).2 = true
      ∧ 2 < 7
      ∧ cellValue 1 (finalState (plainCall 1)
          ([Op.inc, Op.dec, Op.dec, Op.dec, Op.inc, Op.compare 0, Op.dec].take 7)
          (g_ref_count_init 1 zeroState)) = 0)
    ∧ ((decReturns (atomicCall 2)
          [Op.inc, Op.dec, Op.dec, Op.dec, Op.inc, Op.compare 0, Op.dec]
          (g_atomic_ref_count_init 2 zeroState)).count true ≤ 1
      ∧ (g_atomic_ref_count_dec 2 (finalState (atomicCall 2)
          ([Op.inc, Op.dec, Op.dec, Op.dec, Op.inc, Op.compare 0, Op.dec].take 2)
          (g_atomic_ref_count_init 2 zeroState))).2 = true
      ∧ cellValue 2 (finalState (atomicCall 2)
          ([Op.inc, Op.dec, Op.dec, Op.dec, Op.inc, Op.compare 0, Op.dec].take 7)
          (g_atomic_ref_count_init 2 zeroState)) = 0) :=
  ⟨by decide, by decide,
    ⟨(last_reference_signal_once 1 2 zeroState
        [Op.inc, Op.dec, Op.dec, Op.dec, Op.inc, Op.compare 0, Op.dec]
        (by decide) (by decide)).1.1,
      by decide, by decide, by decide,
      (last_reference_signal_once 1 2 zeroState
        [Op.inc, Op.dec, Op.dec, Op.dec, Op.inc, Op.compare 0, Op.dec]
        (by decide) (by decide)).1.2 2 7 (by decide) (by decide) (by decide)⟩,
    ⟨(last_reference_signal_once 1 2 zeroState
        [Op.inc, Op.dec, Op.dec, Op.dec, Op.inc, Op.compare 0, Op.dec]
        (by decide) (by decide)).2.1,
      by decide,
      (last_reference_signal_once 1 2 zeroState
        [Op.inc, Op.dec, Op.dec, Op.dec, Op.inc, Op.compare 0, Op.dec]
        (by decide) (by decide)).2.2 2 7 (by decide) (by decide) (by decide)⟩⟩

/-! ## Calls made by several threads: the steps -/

theorem wrapGint_range (x : Int) : G_MININT ≤ wrapGint x ∧ wrapGint x ≤ G_MAXINT := by
  unfold wrapGint G_MININT G_MAXINT
  omega

theorem cellValue_store (p : Nat) (v : Int) (s : State) : cellValue p (s.store p v) = v := by
  simp [cellValue, State.store]

theorem stepCall_returned (arc : Nat) (o : Op) (r : Option Bool) (s : State) :
    stepCall arc ⟨o, Pc.returned r⟩ s = (⟨o, Pc.returned r⟩, s) := by
  cases o <;> rfl

theorem stepCall_inc_start (arc : Nat) (s : State) (harc : arc ≠ NULL)
    (h : 0 < cellValue arc s) :
    stepCall arc ⟨Op.inc, Pc.start⟩ s = (⟨Op.inc, Pc.checked⟩, s) := by
  unfold cellValue at h
  simp [stepCall, g_atomic_int_get, State.load, harc, h]

theorem stepCall_inc_checked (arc : Nat) (s : State) :
    stepCall arc ⟨Op.inc, Pc.checked⟩ s
      = (⟨Op.inc, Pc.returned none⟩, s.store arc (wrapGint (cellValue arc s + 1))) := rfl

theorem stepCall_dec_start (arc : Nat) (s : State) (harc : arc ≠ NULL)
    (h : 0 < cellValue arc s) :
    stepCall arc ⟨Op.dec, Pc.start⟩ s = (⟨Op.dec, Pc.checked⟩, s) := by
  unfold cellValue at h
  simp [stepCall, g_atomic_int_get, State.load, harc, h]

theorem stepCall_dec_checked (arc : Nat) (s : State) :
    stepCall arc ⟨Op.dec, Pc.checked⟩ s
      = (⟨Op.dec, Pc.returned (some (decide (wrapGint (cellValue arc s - 1) = 0)))⟩,
          s.store arc (wrapGint (cellValue arc s - 1))) := rfl

/-- A call of `g_atomic_ref_count_dec` whose two steps run one right after the
other is the function run from start to end. -/
theorem stepCall_twice_dec (arc : Nat) (s : State) :
    stepCall arc (stepCall arc ⟨Op.dec, Pc.start⟩ s).1 (stepCall arc ⟨Op.dec, Pc.start⟩ s).2
      = (⟨Op.dec, Pc.returned (some (g_atomic_ref_count_dec arc s).2)⟩,
          (g_atomic_ref_count_dec arc s).1) := by
  by_cases harc : arc = NULL
  · simp [stepCall, g_atomic_ref_count_dec, harc]
  · by_cases h : 0 < s.mem arc
    · simp [stepCall, g_atomic_ref_count_dec, g_atomic_int_get, State.load, harc, h]
    · simp [stepCall, g_atomic_ref_count_dec, g_atomic_int_get, State.load, harc, h]

/-- A call of `g_atomic_ref_count_inc` whose two steps run one right after the
other is the function run from start to end. -/
theorem stepCall_twice_inc (arc : Nat) (s : State) :
    stepCall arc (stepCall arc ⟨Op.inc, Pc.start⟩ s).1 (stepCall arc ⟨Op.inc, Pc.start⟩ s).2
      = (⟨Op.inc, Pc.returned none⟩, g_atomic_ref_count_inc arc s) := by
  by_cases harc : arc = NULL
  · simp [stepCall, g_atomic_ref_count_inc, harc]
  · by_cases h : 0 < s.mem arc
    · simp [stepCall, g_atomic_ref_count_inc, g_atomic_int_get, State.load, harc, h]
    · simp [stepCall, g_atomic_ref_count_inc, g_atomic_int_get, State.load, harc, h]

/-- A step of the scheduler either lets nobody run or lets exactly one call take
its next step. -/
theorem stepAt_cases (arc : Nat) (i : Nat) (calls : List Call) (s : State) :
    stepAt arc i calls s = (calls, s)
      ∨ ∃ pre c post, calls = pre ++ c :: post
          ∧ stepAt arc i calls s
            = (pre ++ (stepCall arc c s).1 :: post, (stepCall arc c s).2) := by
  induction calls generalizing i with
  | nil => exact Or.inl (by cases i <;> rfl)
  | cons c cs ih =>
    cases i with
    | zero => exact Or.inr ⟨[], c, cs, rfl, rfl⟩
    | succ i =>
      rcases ih i with h | ⟨pre, c0, post, hcs, hstep⟩
      · left
        simp only [stepAt, h]
      · right
        refine ⟨c :: pre, c0, post, by rw [hcs]; rfl, ?_⟩
        simp only [stepAt, hstep, List.cons_append]

theorem runSchedule_snoc (arc : Nat) (schedule : List Nat) (i : Nat) (sys : List Call × State) :
    runSchedule arc (schedule ++ [i]) sys
      = stepAt arc i (runSchedule arc schedule sys).1 (runSchedule arc schedule sys).2 := by
  induction schedule generalizing sys with
  | nil => rfl
  | cons j rest ih =>
    show runSchedule arc (rest ++ [i]) (stepAt arc j sys.1 sys.2) = _
    rw [ih]
    rfl

theorem returnedCount_split (pre post : List Call) (c : Call) :
    returnedCount (pre ++ c :: post)
      = returnedCount pre + returnedCount post + (if c.pc.isReturned = true then 1 else 0) := by
  simp only [returnedCount, List.countP_append, List.countP_cons]
  omega

theorem returnsOf_split (b : Bool) (pre post : List Call) (c : Call) :
    returnsOf b (pre ++ c :: post)
      = returnsOf b pre + returnsOf b post
        + (if c.pc = Pc.returned (some b) then 1 else 0) := by
  simp only [returnsOf, List.countP_append, List.countP_cons, decide_eq_true_eq]
  omega

theorem returnedCount_le (calls : List Call) : returnedCount calls ≤ calls.length :=
  List.countP_le_length _


/-- One step of any interleaving keeps the release phase as described, leaves the
number of calls alone, and either leaves the cell alone or takes one from it. -/
theorem releasePhase_step (arc : Nat) (harc : arc ≠ NULL) (reported i : Nat)
    (calls : List Call) (s : State) (hlen : (calls.length : Int) ≤ G_MAXINT)
    (h : ReleasePhase arc reported calls s) :
    ReleasePhase arc reported (stepAt arc i calls s).1 (stepAt arc i calls s).2
      ∧ (stepAt arc i calls s).1.length = calls.length
      ∧ ((stepAt arc i calls s).2.mem arc = s.mem arc
        ∨ s.mem arc = (stepAt arc i calls s).2.mem arc + 1) := by
  rcases stepAt_cases arc i calls s with h0 | ⟨pre, c, post, hcalls, hstep⟩
  · rw [h0]
    exact ⟨h, rfl, Or.inl rfl⟩
  · subst hcalls
    rw [hstep]
    have hc := h.1 c (by simp)
    rcases hc with rfl | rfl | rfl | rfl
    · obtain ⟨hA, hB, hC, hD, hE⟩ := h
      have hP := returnedCount_le pre
      have hQ := returnedCount_le post
      rw [returnedCount_split] at hB hD
      rw [returnsOf_split] at hC hD
      rw [returnsOf_split] at hD
      simp only [List.length_append, List.length_cons] at hB hlen ⊢
      simp only [Pc.isReturned, Bool.false_eq_true, if_false, reduceCtorEq] at hB hC hD
      have hpos : 0 < cellValue arc s := by unfold cellValue; omega
      rw [stepCall_dec_start arc s harc hpos]
      refine ⟨⟨?_, ?_, ?_, ?_, hE⟩, trivial, Or.inl rfl⟩
      · intro x hx
        rcases List.mem_append.mp hx with hx | hx
        · exact hA x (by simp [hx])
        · rcases List.mem_cons.mp hx with hx | hx
          · exact Or.inr (Or.inl hx)
          · exact hA x (by simp [hx])
      · rw [returnedCount_split]
        simp only [Pc.isReturned, Bool.false_eq_true, if_false, List.length_append,
          List.length_cons]
        omega
      · rw [returnsOf_split]
        simp only [if_false, reduceCtorEq]
        exact hC
      · rw [returnsOf_split, returnsOf_split, returnedCount_split]
        simp only [Pc.isReturned, Bool.false_eq_true, if_false, reduceCtorEq]
        exact hD
    · obtain ⟨hA, hB, hC, hD, hE⟩ := h
      have hP := returnedCount_le pre
      have hQ := returnedCount_le post
      rw [returnedCount_split] at hB hD
      rw [returnsOf_split] at hC hD
      rw [returnsOf_split] at hD
      simp only [List.length_append, List.length_cons] at hB hlen ⊢
      simp only [Pc.isReturned, Bool.false_eq_true, if_false, reduceCtorEq] at hB hC hD
      unfold G_MAXINT at hlen
      have hpos : 0 < s.mem arc := by omega
      have hw : wrapGint (cellValue arc s - 1) = s.mem arc - 1 := by
        unfold cellValue
        exact wrapGint_of_range _ (by unfold G_MININT; omega) (by unfold G_MAXINT; omega)
      rw [stepCall_dec_checked, hw]
      have hm : (s.store arc (s.mem arc - 1)).mem arc = s.mem arc - 1 :=
        cellValue_store arc _ s
      have hC0 : returnsOf true pre + returnsOf true post = 0 := by
        rw [if_neg (by omega)] at hC
        omega
      refine ⟨⟨?_, ?_, ?_, ?_, hE⟩, trivial, Or.inr (by rw [hm]; omega)⟩
      · intro x hx
        rcases List.mem_append.mp hx with hx | hx
        · exact hA x (by simp [hx])
        · rcases List.mem_cons.mp hx with hx | hx
          · rw [hx]
            by_cases h1 : s.mem arc - 1 = 0
            · exact Or.inr (Or.inr (Or.inl (by simp [h1])))
            · exact Or.inr (Or.inr (Or.inr (by simp [h1])))
          · exact hA x (by simp [hx])
      · rw [returnedCount_split, hm]
        simp only [Pc.isReturned, if_true, List.length_append, List.length_cons]
        omega
      · rw [returnsOf_split, hm]
        by_cases h1 : s.mem arc - 1 = 0
        · simp only [h1, decide_True, if_true]
          omega
        · simp only [h1, decide_False, if_false, Pc.returned.injEq, Option.some.injEq,
            Bool.false_eq_true]
          omega
      · rw [returnsOf_split, returnsOf_split, returnedCount_split]
        by_cases h1 : s.mem arc - 1 = 0
        · simp only [h1, decide_True, if_true, Pc.isReturned, Pc.returned.injEq,
            Option.some.injEq, Bool.true_eq_false, if_false]
          omega
        · simp only [h1, decide_False, if_true, Pc.isReturned, Pc.returned.injEq,
            Option.some.injEq, Bool.false_eq_true, if_false]
          omega
    · rw [stepCall_returned]
      exact ⟨h, rfl, Or.inl rfl⟩
    · rw [stepCall_returned]
      exact ⟨h, rfl, Or.inl rfl⟩

/-- Every interleaving keeps the release phase as described. -/
theorem releasePhase_run (arc : Nat) (harc : arc ≠ NULL) (reported : Nat)
    (schedule : List Nat) (calls : List Call) (s : State)
    (hlen : (calls.length : Int) ≤ G_MAXINT) (h : ReleasePhase arc reported calls s) :
    ReleasePhase arc reported (runSchedule arc schedule (calls, s)).1
        (runSchedule arc schedule (calls, s)).2
      ∧ (runSchedule arc schedule (calls, s)).1.length = calls.length := by
  induction schedule generalizing calls s with
  | nil => exact ⟨h, rfl⟩
  | cons i rest ih =>
    have hs := releasePhase_step arc harc reported i calls s hlen h
    have hr := ih (stepAt arc i calls s).1 (stepAt arc i calls s).2
      (by rw [hs.2.1]; exact hlen) hs.1
    exact ⟨hr.1, hr.2.trans hs.2.1⟩

theorem returnedCount_fresh (o : Op) (n : Nat) : returnedCount (freshCalls o n) = 0 := by
  induction n with
  | zero => rfl
  | succ n ih =>
    have h : freshCalls o (n + 1) = ⟨o, Pc.start⟩ :: freshCalls o n := rfl
    rw [h]
    simpa [returnedCount, List.countP_cons, Pc.isReturned] using ih

theorem returnsOf_fresh (b : Bool) (o : Op) (n : Nat) : returnsOf b (freshCalls o n) = 0 := by
  induction n with
  | zero => rfl
  | succ n ih =>
    have h : freshCalls o (n + 1) = ⟨o, Pc.start⟩ :: freshCalls o n := rfl
    rw [h]
    simpa [returnsOf, List.countP_cons] using ih

theorem length_fresh (o : Op) (n : Nat) : (freshCalls o n).length = n := by
  simp [freshCalls]

theorem mem_fresh (o : Op) (n : Nat) (c : Call) (h : c ∈ freshCalls o n) :
    c = ⟨o, Pc.start⟩ :=
  List.eq_of_mem_replicate h

/-- The release phase begins as described when the cell holds as many references
as there are calls, and at least one. -/
theorem releasePhase_fresh (arc : Nat) (n : Nat) (s : State) (hn : 0 < n)
    (hcell : s.mem arc = (n : Int)) :
    ReleasePhase arc s.criticals (freshCalls Op.dec n) s := by
  refine ⟨fun c hc => Or.inl (mem_fresh _ _ c hc), ?_, ?_, ?_, rfl⟩
  · rw [returnedCount_fresh, length_fresh, hcell]
    simp
  · rw [returnsOf_fresh, if_neg (by rw [hcell]; omega)]
  · rw [returnsOf_fresh, returnsOf_fresh, returnedCount_fresh]

theorem returnedCount_of_all (calls : List Call) (h : allReturned calls = true) :
    returnedCount calls = calls.length := by
  induction calls with
  | nil => rfl
  | cons c cs ih =>
    simp only [allReturned, List.all_cons, Bool.and_eq_true] at h
    have h2 := ih (by simpa [allReturned] using h.2)
    simp only [returnedCount, List.countP_cons, h.1, if_true, List.length_cons] at h2 ⊢
    omega

/-- One step of any interleaving keeps the retain phase as described, provided the
cell has room for all the calls. -/
theorem retainPhase_step (arc : Nat) (harc : arc ≠ NULL) (reported i : Nat)
    (calls : List Call) (s : State) (hlen : calls.length ≤ 2147483646)
    (h : RetainPhase arc reported calls s) :
    RetainPhase arc reported (stepAt arc i calls s).1 (stepAt arc i calls s).2
      ∧ (stepAt arc i calls s).1.length = calls.length := by
  rcases stepAt_cases arc i calls s with h0 | ⟨pre, c, post, hcalls, hstep⟩
  · rw [h0]
    exact ⟨h, rfl⟩
  · subst hcalls
    rw [hstep]
    have hc := h.1 c (by simp)
    rcases hc with rfl | rfl | rfl
    · obtain ⟨hA, hB, hE⟩ := h
      rw [returnedCount_split] at hB
      simp only [List.length_append, List.length_cons] at hlen ⊢
      simp only [Pc.isReturned, Bool.false_eq_true, if_false] at hB
      have hpos : 0 < cellValue arc s := by unfold cellValue; omega
      rw [stepCall_inc_start arc s harc hpos]
      refine ⟨⟨?_, ?_, hE⟩, trivial⟩
      · intro x hx
        rcases List.mem_append.mp hx with hx | hx
        · exact hA x (by simp [hx])
        · rcases List.mem_cons.mp hx with hx | hx
          · exact Or.inr (Or.inl hx)
          · exact hA x (by simp [hx])
      · rw [returnedCount_split]
        simp only [Pc.isReturned, Bool.false_eq_true, if_false]
        exact hB
    · obtain ⟨hA, hB, hE⟩ := h
      have hP := returnedCount_le pre
      have hQ := returnedCount_le post
      rw [returnedCount_split] at hB
      simp only [List.length_append, List.length_cons] at hlen ⊢
      simp only [Pc.isReturned, Bool.false_eq_true, if_false] at hB
      have hw : wrapGint (cellValue arc s + 1) = s.mem arc + 1 := by
        unfold cellValue
        exact wrapGint_of_range _ (by unfold G_MININT; omega) (by unfold G_MAXINT; omega)
      rw [stepCall_inc_checked, hw]
      have hm : (s.store arc (s.mem arc + 1)).mem arc = s.mem arc + 1 :=
        cellValue_store arc _ s
      refine ⟨⟨?_, ?_, hE⟩, trivial⟩
      · intro x hx
        rcases List.mem_append.mp hx with hx | hx
        · exact hA x (by simp [hx])
        · rcases List.mem_cons.mp hx with hx | hx
          · exact Or.inr (Or.inr hx)
          · exact hA x (by simp [hx])
      · rw [returnedCount_split, hm]
        simp only [Pc.isReturned, if_true]
        omega
    · rw [stepCall_returned]
      exact ⟨h, rfl⟩

/-- Every interleaving keeps the retain phase as described, provided the cell has
room for all the calls. -/
theorem retainPhase_run (arc : Nat) (harc : arc ≠ NULL) (reported : Nat)
    (schedule : List Nat) (calls : List Call) (s : State)
    (hlen : calls.length ≤ 2147483646) (h : RetainPhase arc reported calls s) :
    RetainPhase arc reported (runSchedule arc schedule (calls, s)).1
        (runSchedule arc schedule (calls, s)).2
      ∧ (runSchedule arc schedule (calls, s)).1.length = calls.length := by
  induction schedule generalizing calls s with
  | nil => exact ⟨h, rfl⟩
  | cons i rest ih =>
    have hs := retainPhase_step arc harc reported i calls s hlen h
    have hr := ih (stepAt arc i calls s).1 (stepAt arc i calls s).2
      (by rw [hs.2]; exact hlen) hs.1
    exact ⟨hr.1, hr.2.trans hs.2⟩

/-- The retain phase begins as described right after init. -/
theorem retainPhase_fresh (arc : Nat) (harc : arc ≠ NULL) (n : Nat) (s : State) :
    RetainPhase arc (g_atomic_ref_count_init arc s).criticals (freshCalls Op.inc n)
      (g_atomic_ref_count_init arc s) := by
  refine ⟨fun c hc => Or.inl (mem_fresh _ _ c hc), ?_, rfl⟩
  rw [returnedCount_fresh]
  have h := atomic_init_value arc s harc
  unfold cellValue at h
  rw [h]
  rfl

/-- Whatever step a call takes, the cell keeps holding a `gint`. -/
theorem stepCall_range (arc : Nat) (harc : arc ≠ NULL) (c : Call) (s : State)
    (h : G_MININT ≤ s.mem arc ∧ s.mem arc ≤ G_MAXINT) :
    G_MININT ≤ (stepCall arc c s).2.mem arc ∧ (stepCall arc c s).2.mem arc ≤ G_MAXINT := by
  obtain ⟨o, pc⟩ := c
  cases pc with
  | returned r => rw [stepCall_returned]; exact h
  | start =>
    cases o with
    | inc =>
      by_cases hpos : 0 < s.mem arc
      · simpa [stepCall, g_atomic_int_get, State.load, harc, hpos] using h
      · simpa [stepCall, g_atomic_int_get, State.load, g_return_if_fail_warning, harc, hpos]
          using h
    | dec =>
      by_cases hpos : 0 < s.mem arc
      · simpa [stepCall, g_atomic_int_get, State.load, harc, hpos] using h
      · simpa [stepCall, g_atomic_int_get, State.load, g_return_if_fail_warning, harc, hpos]
          using h
    | compare val =>
      simpa [stepCall, g_atomic_ref_count_compare, harc] using h
  | checked =>
    cases o with
    | inc =>
      rw [stepCall_inc_checked]
      show G_MININT ≤ cellValue arc (s.store arc (wrapGint (cellValue arc s + 1)))
        ∧ cellValue arc (s.store arc (wrapGint (cellValue arc s + 1))) ≤ G_MAXINT
      rw [cellValue_store]
      exact wrapGint_range _
    | dec =>
      rw [stepCall_dec_checked]
      show G_MININT ≤ cellValue arc (s.store arc (wrapGint (cellValue arc s - 1)))
        ∧ cellValue arc (s.store arc (wrapGint (cellValue arc s - 1))) ≤ G_MAXINT
      rw [cellValue_store]
      exact wrapGint_range _
    | compare val => exact h

/-- Whatever the interleaving, the cell keeps holding a `gint`. -/
theorem runSchedule_range (arc : Nat) (harc : arc ≠ NULL) (schedule : List Nat)
    (calls : List Call) (s : State) (h : G_MININT ≤ s.mem arc ∧ s.mem arc ≤ G_MAXINT) :
    G_MININT ≤ (runSchedule arc schedule (calls, s)).2.mem arc
      ∧ (runSchedule arc schedule (calls, s)).2.mem arc ≤ G_MAXINT := by
  induction schedule generalizing calls s with
  | nil => exact h
  | cons i rest ih =>
    have hs : G_MININT ≤ (stepAt arc i calls s).2.mem arc
        ∧ (stepAt arc i calls s).2.mem arc ≤ G_MAXINT := by
      rcases stepAt_cases arc i calls s with h0 | ⟨pre, c, post, _, hstep⟩
      · rw [h0]; exact h
      · rw [hstep]; exact stepCall_range arc harc c s h
    exact ih (stepAt arc i calls s).1 (stepAt arc i calls s).2 hs

/-! ## Calls made by several threads: every call returns -/

/-- A call that is given a turn takes a step, unless it has returned: its check
passes while the cell is positive, and its update always goes through. -/
theorem stepCall_rank (arc : Nat) (harc : arc ≠ NULL) (c : Call) (s : State)
    (hop : c.op = Op.inc ∨ c.op = Op.dec)
    (hchk : c.pc.isReturned = true ∨ 0 < s.mem arc) :
    min 2 (c.pc.rank + 1) ≤ (stepCall arc c s).1.pc.rank := by
  obtain ⟨o, pc⟩ := c
  cases pc with
  | returned r => rw [stepCall_returned]; simp [Pc.rank]
  | checked =>
    rcases hop with h | h <;> simp only at h <;> subst h
    · rw [stepCall_inc_checked]; simp [Pc.rank]
    · rw [stepCall_dec_checked]; simp [Pc.rank]
  | start =>
    have hpos : 0 < cellValue arc s := by
      rcases hchk with h | h
      · simp [Pc.isReturned] at h
      · exact h
    rcases hop with h | h <;> simp only at h <;> subst h
    · rw [stepCall_inc_start arc s harc hpos]; simp [Pc.rank]
    · rw [stepCall_dec_start arc s harc hpos]; simp [Pc.rank]

/-- A step of the scheduler advances the call it names and leaves the other calls
where they stand. -/
theorem rankAt_stepAt (arc : Nat) (harc : arc ≠ NULL) (i j : Nat) (calls : List Call)
    (s : State)
    (h : ∀ c ∈ calls, (c.op = Op.inc ∨ c.op = Op.dec)
      ∧ (c.pc.isReturned = true ∨ 0 < s.mem arc)) :
    (j ≠ i → rankAt (stepAt arc i calls s).1 j = rankAt calls j)
      ∧ min 2 (rankAt calls i + 1) ≤ rankAt (stepAt arc i calls s).1 i := by
  induction calls generalizing i j with
  | nil =>
    have h0 : stepAt arc i [] s = ([], s) := by cases i <;> rfl
    rw [h0]
    exact ⟨fun _ => rfl, by simp [rankAt]⟩
  | cons c cs ih =>
    cases i with
    | zero =>
      refine ⟨?_, ?_⟩
      · intro hj
        cases j with
        | zero => exact absurd rfl hj
        | succ j => rfl
      · exact stepCall_rank arc harc c s (h c (by simp)).1 (h c (by simp)).2
    | succ i =>
      have hcs : ∀ x ∈ cs, (x.op = Op.inc ∨ x.op = Op.dec)
          ∧ (x.pc.isReturned = true ∨ 0 < s.mem arc) :=
        fun x hx => h x (by simp [hx])
      refine ⟨?_, ?_⟩
      · intro hj
        cases j with
        | zero => rfl
        | succ j => exact (ih i j hcs).1 (by omega)
      · exact (ih i i hcs).2

theorem rankAt_past_end (calls : List Call) (j : Nat) (h : calls.length ≤ j) :
    rankAt calls j = 2 := by
  induction calls generalizing j with
  | nil => rfl
  | cons c cs ih =>
    cases j with
    | zero => simp at h
    | succ j => exact ih j (by simpa using h)

/-- Calls that have all taken their two steps have all returned. -/
theorem allReturned_of_rank (calls : List Call) (h : ∀ j, 2 ≤ rankAt calls j) :
    allReturned calls = true := by
  induction calls with
  | nil => rfl
  | cons c cs ih =>
    have h0 := h 0
    have hcs := ih (fun j => h (j + 1))
    have hc : c.pc.isReturned = true := by
      obtain ⟨o, pc⟩ := c
      cases pc with
      | start => simp [rankAt, Pc.rank] at h0
      | checked => simp [rankAt, Pc.rank] at h0
      | returned r => rfl
    simp only [allReturned, List.all_cons, hc, Bool.true_and] at hcs ⊢
    exact hcs

theorem returnedCount_lt (calls : List Call) (c : Call) (hc : c ∈ calls)
    (hr : c.pc.isReturned = false) : returnedCount calls < calls.length := by
  obtain ⟨pre, post, rfl⟩ := List.append_of_mem hc
  have hP := returnedCount_le pre
  have hQ := returnedCount_le post
  rw [returnedCount_split, hr]
  simp only [List.length_append, List.length_cons, Bool.false_eq_true, if_false]
  omega

/-- In the release phase, a call that has not returned finds the cell positive. -/
theorem releasePhase_can_step (arc : Nat) (reported : Nat) (calls : List Call) (s : State)
    (h : ReleasePhase arc reported calls s) :
    ∀ c ∈ calls, (c.op = Op.inc ∨ c.op = Op.dec)
      ∧ (c.pc.isReturned = true ∨ 0 < s.mem arc) := by
  intro c hc
  obtain ⟨hA, hB, _, _, _⟩ := h
  refine ⟨?_, ?_⟩
  · rcases hA c hc with rfl | rfl | rfl | rfl <;> exact Or.inr rfl
  · cases hr : c.pc.isReturned with
    | true => exact Or.inl rfl
    | false =>
      have := returnedCount_lt calls c hc hr
      exact Or.inr (by omega)

/-- In the retain phase, every call finds the cell positive. -/
theorem retainPhase_can_step (arc : Nat) (reported : Nat) (calls : List Call) (s : State)
    (h : RetainPhase arc reported calls s) :
    ∀ c ∈ calls, (c.op = Op.inc ∨ c.op = Op.dec)
      ∧ (c.pc.isReturned = true ∨ 0 < s.mem arc) := by
  intro c hc
  obtain ⟨hA, hB, _⟩ := h
  refine ⟨?_, Or.inr (by omega)⟩
  rcases hA c hc with rfl | rfl | rfl <;> exact Or.inl rfl

/-- Release phase: after any interleaving, each call has taken as many steps as it
was given turns, up to the two steps it needs. -/
theorem releasePhase_rank_run (arc : Nat) (harc : arc ≠ NULL) (reported : Nat)
    (schedule : List Nat) (calls : List Call) (s : State)
    (hlen : (calls.length : Int) ≤ G_MAXINT) (h : ReleasePhase arc reported calls s)
    (j : Nat) :
    min 2 (rankAt calls j + schedule.count j)
      ≤ rankAt (runSchedule arc schedule (calls, s)).1 j := by
  induction schedule generalizing calls s with
  | nil =>
    show min 2 (rankAt calls j + 0) ≤ rankAt calls j
    omega
  | cons i rest ih =>
    have hs := releasePhase_step arc harc reported i calls s hlen h
    have hr := ih (stepAt arc i calls s).1 (stepAt arc i calls s).2
      (by rw [hs.2.1]; exact hlen) hs.1
    have rk := rankAt_stepAt arc harc i j calls s (releasePhase_can_step arc reported calls s h)
    have hgoal : rankAt (runSchedule arc (i :: rest) (calls, s)).1 j
        = rankAt (runSchedule arc rest ((stepAt arc i calls s).1, (stepAt arc i calls s).2)).1 j :=
      rfl
    rw [hgoal, List.count_cons]
    by_cases hij : j = i
    · subst hij
      have h2 := rk.2
      simp only [beq_self_eq_true, if_true]
      omega
    · have h1 := rk.1 hij
      have hne : (i == j) = false := by simpa using fun h => hij h.symm
      rw [h1] at hr
      simp only [hne, Bool.false_eq_true, if_false]
      omega

/-- Retain phase: after any interleaving, each call has taken as many steps as it
was given turns, up to the two steps it needs. -/
theorem retainPhase_rank_run (arc : Nat) (harc : arc ≠ NULL) (reported : Nat)
    (schedule : List Nat) (calls : List Call) (s : State)
    (hlen : calls.length ≤ 2147483646) (h : RetainPhase arc reported calls s)
    (j : Nat) :
    min 2 (rankAt calls j + schedule.count j)
      ≤ rankAt (runSchedule arc schedule (calls, s)).1 j := by
  induction schedule generalizing calls s with
  | nil =>
    show min 2 (rankAt calls j + 0) ≤ rankAt calls j
    omega
  | cons i rest ih =>
    have hs := retainPhase_step arc harc reported i calls s hlen h
    have hr := ih (stepAt arc i calls s).1 (stepAt arc i calls s).2
      (by rw [hs.2]; exact hlen) hs.1
    have rk := rankAt_stepAt arc harc i j calls s (retainPhase_can_step arc reported calls s h)
    have hgoal : rankAt (runSchedule arc (i :: rest) (calls, s)).1 j
        = rankAt (runSchedule arc rest ((stepAt arc i calls s).1, (stepAt arc i calls s).2)).1 j :=
      rfl
    rw [hgoal, List.count_cons]
    by_cases hij : j = i
    · subst hij
      have h2 := rk.2
      simp only [beq_self_eq_true, if_true]
      omega
    · have h1 := rk.1 hij
      have hne : (i == j) = false := by simpa using fun h => hij h.symm
      rw [h1] at hr
      simp only [hne, Bool.false_eq_true, if_false]
      omega

/-- Calls that were each given two turns have all taken their two steps. -/
theorem rank_of_turns (calls final : List Call) (schedule : List Nat)
    (hlen : final.length = calls.length)
    (hturns : ∀ i, i < calls.length → 2 ≤ schedule.count i)
    (hrank : ∀ j, min 2 (rankAt calls j + schedule.count j) ≤ rankAt final j) :
    ∀ j, 2 ≤ rankAt final j := by
  intro j
  rcases Nat.lt_or_ge j calls.length with hj | hj
  · have h1 := hturns j hj
    have h2 := hrank j
    omega
  · rw [rankAt_past_end final j (by omega)]

theorem take_succ_schedule (schedule : List Nat) (j : Nat) (hj : j < schedule.length) :
    schedule.take (j + 1) = schedule.take j ++ [schedule[j]] := by
  rw [List.take_succ, List.getElem?_eq_getElem hj]
  rfl

/-- C11 (as amended): on the atomic counter, for every `K ≤ 2^31 - 2` and every
interleaving that gives each call the two turns it needs: after
`g_atomic_ref_count_init`, the `K` calls of `g_atomic_ref_count_inc` made by `K`
threads all return and leave the count at `1 + K`; the `K + 1` calls of
`g_atomic_ref_count_dec` that follow all return, exactly one of them `TRUE` and
`K` of them `FALSE`, without any report; and the step at which a `TRUE` is
returned is the step that takes the cell from `1` to `0`. -/
theorem concurrent_release_once (arc : Nat) (s : State) (K : Nat) (schedI schedD : List Nat)
    (harc : arc ≠ NULL) (hK : K ≤ 2147483646)
    (hI : ∀ i, i < K → 2 ≤ schedI.count i)
    (hD : ∀ i, i < K + 1 → 2 ≤ schedD.count i) :
    (allReturned (retainPhaseRun arc K schedI s).1 = true
      ∧ cellValue arc (retainPhaseRun arc K schedI s).2 = 1 + (K : Int)
      ∧ (retainPhaseRun arc K schedI s).2.criticals
          = (g_atomic_ref_count_init arc s).criticals)
    ∧ (allReturned (releasePhaseRun arc K schedD (retainPhaseRun arc K schedI s).2).1 = true
      ∧ returnsOf true (releasePhaseRun arc K schedD (retainPhaseRun arc K schedI s).2).1 = 1
      ∧ returnsOf false (releasePhaseRun arc K schedD (retainPhaseRun arc K schedI s).2).1 = K
      ∧ cellValue arc (releasePhaseRun arc K schedD (retainPhaseRun arc K schedI s).2).2 = 0
      ∧ (releasePhaseRun arc K schedD (retainPhaseRun arc K schedI s).2).2.criticals
          = (retainPhaseRun arc K schedI s).2.criticals)
    ∧ (∀ j, j < schedD.length →
      returnsOf true
          (releasePhaseRun arc K (schedD.take (j + 1)) (retainPhaseRun arc K schedI s).2).1
        = returnsOf true
            (releasePhaseRun arc K (schedD.take j) (retainPhaseRun arc K schedI s).2).1 + 1 →
      cellValue arc
          (releasePhaseRun arc K (schedD.take j) (retainPhaseRun arc K schedI s).2).2 = 1
      ∧ cellValue arc
          (releasePhaseRun arc K (schedD.take (j + 1)) (retainPhaseRun arc K schedI s).2).2
        = 0) := by
  have hIfresh := retainPhase_fresh arc harc K s
  have hIlen : (freshCalls Op.inc K).length ≤ 2147483646 := by rw [length_fresh]; exact hK
  have hIrun := retainPhase_run arc harc _ schedI (freshCalls Op.inc K)
    (g_atomic_ref_count_init arc s) hIlen hIfresh
  have hIall : allReturned (retainPhaseRun arc K schedI s).1 = true := by
    unfold retainPhaseRun
    apply allReturned_of_rank
    exact rank_of_turns (freshCalls Op.inc K) _ schedI hIrun.2
      (by rw [length_fresh]; exact hI)
      (retainPhase_rank_run arc harc _ schedI _ _ hIlen hIfresh)
  have hcount : (retainPhaseRun arc K schedI s).2.mem arc = 1 + (K : Int) := by
    have hall := returnedCount_of_all _ hIall
    unfold retainPhaseRun at hall ⊢
    rw [hIrun.2, length_fresh] at hall
    rw [hIrun.1.2.1, hall]
  have hDlen : (((freshCalls Op.dec (K + 1)).length : Nat) : Int) ≤ G_MAXINT := by
    rw [length_fresh]
    unfold G_MAXINT
    push_cast
    omega
  have hDfresh := releasePhase_fresh arc (K + 1) (retainPhaseRun arc K schedI s).2
    (by omega) (by rw [hcount]; push_cast; omega)
  have hDall : allReturned
      (releasePhaseRun arc K schedD (retainPhaseRun arc K schedI s).2).1 = true := by
    unfold releasePhaseRun
    have hrun := releasePhase_run arc harc _ schedD _ _ hDlen hDfresh
    apply allReturned_of_rank
    exact rank_of_turns (freshCalls Op.dec (K + 1)) _ schedD hrun.2
      (by rw [length_fresh]; exact hD)
      (releasePhase_rank_run arc harc _ schedD _ _ hDlen hDfresh)
  refine ⟨⟨hIall, hcount, ?_⟩, ⟨hDall, ?_⟩, ?_⟩
  · unfold retainPhaseRun
    exact hIrun.1.2.2
  · have hall := returnedCount_of_all _ hDall
    unfold releasePhaseRun at hall ⊢
    have hrun := releasePhase_run arc harc _ schedD _ _ hDlen hDfresh
    rw [hrun.2, length_fresh] at hall
    obtain ⟨_, hB, hC, hDD, hE⟩ := hrun.1
    rw [hrun.2, length_fresh, hall] at hB
    have hz : (runSchedule arc schedD (freshCalls Op.dec (K + 1),
        (retainPhaseRun arc K schedI s).2)).2.mem arc = 0 := by omega
    rw [hz, if_pos rfl] at hC
    exact ⟨hC, by omega, hz, hE⟩
  · intro j hj hstep
    unfold releasePhaseRun at hstep ⊢
    have hbefore := releasePhase_run arc harc _ (schedD.take j) _ _ hDlen hDfresh
    rw [take_succ_schedule schedD j hj, runSchedule_snoc] at hstep ⊢
    have hafter := releasePhase_step arc harc _ schedD[j] _ _
      (by rw [hbefore.2]; exact hDlen) hbefore.1
    obtain ⟨_, _, hCb, _, _⟩ := hbefore.1
    obtain ⟨⟨_, _, hCa, _, _⟩, _, hrel⟩ := hafter
    rw [hCa, hCb] at hstep
    unfold cellValue
    split at hstep <;> split at hstep <;> omega

/-- Witness of C11 as amended: two threads retain and three calls release a counter
at address `1`. The two retains overlap, the three releases all pass their
check before any of them decrements, and the last decrement, step `5`, returns
`TRUE`. -/
theorem concurrent_release_once_witness :
    (1 : Nat) ≠ NULL ∧ 2 ≤ 2147483646
    ∧ (∀ i, i < 2 → 2 ≤ [0, 1, 1, 0].count i)
    ∧ (∀ i, i < 2 + 1 → 2 ≤ [0, 1, 2, 2, 0, 1].count i)
    ∧ (allReturned (retainPhaseRun 1 2 [0, 1, 1, 0] zeroState).1 = true
      ∧ cellValue 1 (retainPhaseRun 1 2 [0, 1, 1, 0] zeroState).2 = 1 + ((2 : Nat) : Int)
      ∧ (retainPhaseRun 1 2 [0, 1, 1, 0] zeroState).2.criticals
          = (g_atomic_ref_count_init 1 zeroState).criticals)
    ∧ (allReturned (releasePhaseRun 1 2 [0, 1, 2, 2, 0, 1]
          (retainPhaseRun 1 2 [0, 1, 1, 0] zeroState).2).1 = true
      ∧ returnsOf true (releasePhaseRun 1 2 [0, 1, 2, 2, 0, 1]
          (retainPhaseRun 1 2 [0, 1, 1, 0] zeroState).2).1 = 1
      ∧ returnsOf false (releasePhaseRun 1 2 [0, 1, 2, 2, 0, 1]
          (retainPhaseRun 1 2 [0, 1, 1, 0] zeroState).2).1 = 2
      ∧ cellValue 1 (releasePhaseRun 1 2 [0, 1, 2, 2, 0, 1]
          (retainPhaseRun 1 2 [0, 1, 1, 0] zeroState).2).2 = 0
      ∧ (releasePhaseRun 1 2 [0, 1, 2, 2, 0, 1]
          (retainPhaseRun 1 2 [0, 1, 1, 0] zeroState).2).2.criticals
          = (retainPhaseRun 1 2 [0, 1, 1, 0] zeroState).2.criticals)
    ∧ 5 < [0, 1, 2, 2, 0, 1].length
    ∧ returnsOf true (releasePhaseRun 1 2 ([0, 1, 2, 2, 0, 1].take (5 + 1))
          (retainPhaseRun 1 2 [0, 1, 1, 0] zeroState).2).1
        = returnsOf true (releasePhaseRun 1 2 ([0, 1, 2, 2, 0, 1].take 5)
            (retainPhaseRun 1 2 [0, 1, 1, 0] zeroState).2).1 + 1
    ∧ (cellValue 1 (releasePhaseRun 1 2 ([0, 1, 2, 2, 0, 1].take 5)
          (retainPhaseRun 1 2 [0, 1, 1, 0] zeroState).2).2 = 1
      ∧ cellValue 1 (releasePhaseRun 1 2 ([0, 1, 2, 2, 0, 1].take (5 + 1))
          (retainPhaseRun 1 2 [0, 1, 1, 0] zeroState).2).2 = 0) :=
  ⟨by decide, by decide, by decide, by decide,
    (concurrent_release_once 1 zeroState 2 [0, 1, 1, 0] [0, 1, 2, 2, 0, 1] (by decide)
      (by decide) (by decide) (by decide)).1,
    (concurrent_release_once 1 zeroState 2 [0, 1, 1, 0] [0, 1, 2, 2, 0, 1] (by decide)
      (by decide) (by decide) (by decide)).2.1,
    by decide, by decide,
    (concurrent_release_once 1 zeroState 2 [0, 1, 1, 0] [0, 1, 2, 2, 0, 1] (by decide)
      (by decide) (by decide) (by decide)).2.2 5 (by decide) (by decide)⟩

/-! ## Calls made by several threads: past the capacity of the cell -/

theorem runSchedule_append (arc : Nat) (xs ys : List Nat) (sys : List Call × State) :
    runSchedule arc (xs ++ ys) sys = runSchedule arc ys (runSchedule arc xs sys) := by
  induction xs generalizing sys with
  | nil => rfl
  | cons i rest ih =>
    show runSchedule arc (rest ++ ys) (stepAt arc i sys.1 sys.2) = _
    rw [ih]
    rfl

theorem stepAt_at_length (arc : Nat) (pre : List Call) (c : Call) (post : List Call)
    (s : State) :
    stepAt arc pre.length (pre ++ c :: post) s
      = (pre ++ (stepCall arc c s).1 :: post, (stepCall arc c s).2) := by
  induction pre with
  | nil => rfl
  | cons d ds ih =>
    show (d :: (stepAt arc ds.length (ds ++ c :: post) s).1,
      (stepAt arc ds.length (ds ++ c :: post) s).2) = _
    rw [ih]
    rfl

/-- Two turns in a row for the call that comes after `n` calls that are through. -/
theorem two_turns (arc : Nat) (n : Nat) (d c : Call) (post : List Call) (s : State) :
    runSchedule arc [n, n] (List.replicate n d ++ c :: post, s)
      = (List.replicate n d
          ++ (stepCall arc (stepCall arc c s).1 (stepCall arc c s).2).1 :: post,
        (stepCall arc (stepCall arc c s).1 (stepCall arc c s).2).2) := by
  have h1 := stepAt_at_length arc (List.replicate n d) c post s
  have h2 := stepAt_at_length arc (List.replicate n d) (stepCall arc c s).1 post
    (stepCall arc c s).2
  rw [List.length_replicate] at h1 h2
  show stepAt arc n (stepAt arc n (List.replicate n d ++ c :: post) s).1
    (stepAt arc n (List.replicate n d ++ c :: post) s).2 = _
  rw [h1, h2]

theorem replicate_snoc_append (n : Nat) (d : Call) (post : List Call) :
    List.replicate n d ++ d :: post = List.replicate (n + 1) d ++ post := by
  rw [List.replicate_succ', List.append_assoc]
  rfl

/-- Retains that do not overlap: the interleaving without overlap runs
`g_atomic_ref_count_inc` once per call, one call after the other. -/
theorem seq_run_inc (arc : Nat) (n m : Nat) (s : State) :
    runSchedule arc (seqSchedule n) (freshCalls Op.inc (n + m), s)
      = (List.replicate n ⟨Op.inc, Pc.returned none⟩ ++ freshCalls Op.inc m,
        finalState (atomicCall arc) (List.replicate n Op.inc) s) := by
  induction n generalizing m with
  | zero =>
    rw [Nat.zero_add]
    rfl
  | succ n ih =>
    have harith : n + 1 + m = n + (m + 1) := by omega
    have hsched : seqSchedule (n + 1) = seqSchedule n ++ [n, n] := rfl
    have hfresh : freshCalls Op.inc (m + 1) = ⟨Op.inc, Pc.start⟩ :: freshCalls Op.inc m := rfl
    have hfin : finalState (atomicCall arc) (List.replicate (n + 1) Op.inc) s
        = g_atomic_ref_count_inc arc
            (finalState (atomicCall arc) (List.replicate n Op.inc) s) := by
      rw [List.replicate_succ', finalState_snoc]
      rfl
    rw [harith, hsched, runSchedule_append, ih (m + 1), hfresh, two_turns,
      stepCall_twice_inc, replicate_snoc_append, hfin]

theorem atomic_dec_dead_eq (arc : Nat) (s : State) (hdead : s.mem arc ≤ 0) :
    g_atomic_ref_count_dec arc s = (g_return_if_fail_warning s, false) := by
  have hnl : ¬ 0 < s.mem arc := by omega
  by_cases harc : arc = NULL
  · simp [g_atomic_ref_count_dec, harc]
  · simp [g_atomic_ref_count_dec, g_atomic_int_get, State.load, harc, hnl]

/-- Releases that do not overlap, on a cell that is not live: every call fails its
check and returns `FALSE`. -/
theorem seq_run_dec_dead (arc : Nat) (n m : Nat) (s : State) (hdead : s.mem arc ≤ 0) :
    ∃ s1, s1.mem arc ≤ 0
      ∧ runSchedule arc (seqSchedule n) (freshCalls Op.dec (n + m), s)
        = (List.replicate n ⟨Op.dec, Pc.returned (some false)⟩ ++ freshCalls Op.dec m, s1) := by
  induction n generalizing m with
  | zero =>
    refine ⟨s, hdead, ?_⟩
    rw [Nat.zero_add]
    rfl
  | succ n ih =>
    obtain ⟨s1, hs1, hrun⟩ := ih (m + 1)
    have harith : n + 1 + m = n + (m + 1) := by omega
    have hsched : seqSchedule (n + 1) = seqSchedule n ++ [n, n] := rfl
    have hfresh : freshCalls Op.dec (m + 1) = ⟨Op.dec, Pc.start⟩ :: freshCalls Op.dec m := rfl
    refine ⟨g_return_if_fail_warning s1, hs1, ?_⟩
    rw [harith, hsched, runSchedule_append, hrun, hfresh, two_turns, stepCall_twice_dec,
      atomic_dec_dead_eq arc s1 hs1, replicate_snoc_append]

theorem seqSchedule_count (n i : Nat) :
    (seqSchedule n).count i = if i < n then 2 else 0 := by
  induction n with
  | zero => rfl
  | succ n ih =>
    have hsched : seqSchedule (n + 1) = seqSchedule n ++ [n, n] := rfl
    rw [hsched, List.count_append, ih, List.count_cons, List.count_cons, List.count_nil]
    by_cases h : n = i
    · subst h
      simp
    · have hne : (n == i) = false := by simpa using h
      simp only [hne, Bool.false_eq_true, if_false]
      split <;> split <;> omega

/-- Atomic counter, `K ≥ 2^31 - 1` threads: with no two calls overlapping, every
call gets its two turns and returns, the retains leave `G_MININT` in the cell,
and all `K + 1` releases return `FALSE`. -/
theorem concurrent_overflow (arc : Nat) (harc : arc ≠ NULL) (s : State) (K : Nat)
    (hK : 2147483647 ≤ K) :
    (∀ i, i < K → 2 ≤ (seqSchedule K).count i)
    ∧ (∀ i, i < K + 1 → 2 ≤ (seqSchedule (K + 1)).count i)
    ∧ allReturned (retainPhaseRun arc K (seqSchedule K) s).1 = true
    ∧ cellValue arc (retainPhaseRun arc K (seqSchedule K) s).2 = G_MININT
    ∧ allReturned (releasePhaseRun arc K (seqSchedule (K + 1))
        (retainPhaseRun arc K (seqSchedule K) s).2).1 = true
    ∧ returnsOf true (releasePhaseRun arc K (seqSchedule (K + 1))
        (retainPhaseRun arc K (seqSchedule K) s).2).1 = 0
    ∧ returnsOf false (releasePhaseRun arc K (seqSchedule (K + 1))
        (retainPhaseRun arc K (seqSchedule K) s).2).1 = K + 1 := by
  have hI : retainPhaseRun arc K (seqSchedule K) s
      = (List.replicate K ⟨Op.inc, Pc.returned none⟩,
        finalState (atomicCall arc) (List.replicate K Op.inc)
          (g_atomic_ref_count_init arc s)) := by
    have h := seq_run_inc arc K 0 (g_atomic_ref_count_init arc s)
    rw [Nat.add_zero] at h
    unfold retainPhaseRun
    rw [h]
    show (List.replicate K _ ++ [], _) = _
    rw [List.append_nil]
  have hcell := atomic_incs_overflow arc harc s K hK
  have hdead : (retainPhaseRun arc K (seqSchedule K) s).2.mem arc ≤ 0 := by
    rw [hI]
    unfold cellValue at hcell
    show (finalState (atomicCall arc) (List.replicate K Op.inc)
      (g_atomic_ref_count_init arc s)).mem arc ≤ 0
    rw [hcell]
    decide
  obtain ⟨s1, _, hD⟩ := seq_run_dec_dead arc (K + 1) 0
    (retainPhaseRun arc K (seqSchedule K) s).2 hdead
  have hD1 : releasePhaseRun arc K (seqSchedule (K + 1))
      (retainPhaseRun arc K (seqSchedule K) s).2
      = (List.replicate (K + 1) ⟨Op.dec, Pc.returned (some false)⟩, s1) := by
    rw [Nat.add_zero] at hD
    unfold releasePhaseRun
    rw [hD]
    show (List.replicate (K + 1) _ ++ [], _) = _
    rw [List.append_nil]
  refine ⟨?_, ?_, ?_, ?_, ?_, ?_, ?_⟩
  · intro i hi
    rw [seqSchedule_count, if_pos hi]
  · intro i hi
    rw [seqSchedule_count, if_pos hi]
  · rw [hI]
    simp [allReturned, Pc.isReturned]
  · rw [hI]
    exact hcell
  · rw [hD1]
    simp [allReturned, Pc.isReturned]
  · rw [hD1]
    simp [returnsOf, List.countP_replicate]
  · rw [hD1]
    simp [returnsOf, List.countP_replicate]

/-- C11 fails as stated: with `K = 2^31 - 1` threads, no two calls overlapping, every
retain and every release gets its two turns and returns, but the last retain is
made on `G_MAXINT` and wraps the cell to `G_MININT`, so the count is not
`1 + K`, and all `K + 1` releases fail their check: none returns `TRUE`. -/
theorem concurrent_release_once_counterexample :
    (∀ i, i < 2147483647 → 2 ≤ (seqSchedule 2147483647).count i)
    ∧ (∀ i, i < 2147483647 + 1 → 2 ≤ (seqSchedule (2147483647 + 1)).count i)
    ∧ allReturned (retainPhaseRun 1 2147483647 (seqSchedule 2147483647) zeroState).1 = true
    ∧ cellValue 1 (retainPhaseRun 1 2147483647 (seqSchedule 2147483647) zeroState).2
        = G_MININT
    ∧ allReturned (releasePhaseRun 1 2147483647 (seqSchedule (2147483647 + 1))
        (retainPhaseRun 1 2147483647 (seqSchedule 2147483647) zeroState).2).1 = true
    ∧ returnsOf true (releasePhaseRun 1 2147483647 (seqSchedule (2147483647 + 1))
        (retainPhaseRun 1 2147483647 (seqSchedule 2147483647) zeroState).2).1 = 0
    ∧ returnsOf false (releasePhaseRun 1 2147483647 (seqSchedule (2147483647 + 1))
        (retainPhaseRun 1 2147483647 (seqSchedule 2147483647) zeroState).2).1
        = 2147483647 + 1 :=
  concurrent_overflow 1 (by decide) zeroState 2147483647 (by decide)

end GRefCount
